import Mathlib

/-!
Verification of the duplicate-photo/video remover against its design spec.

The repository has two scripts:

* `compare_and_delete_duplicates.py` ("reference mode"): builds a digest map
  of a reference tree, then deletes every media file of a target tree whose
  digest occurs in the map and whose absolute path differs from the mapped
  reference path, writing one CSV row per deletion.

* `remove_duplicate_photos_by_Gemini.py` ("single-tree mode"): groups media
  files of one tree by digest, keeps one member per group (stable descending
  sort by a composite key), moves the others under a backup root at their
  path relative to the scan root, and writes one CSV row per member of each
  duplicate group.

Modelling decisions:

* Paths are lists of characters (`FPath`); `os.path.join(a, b)` is
  `a ++ '/' :: b`.  All configured roots and walk roots are taken to be
  absolute and normalised, so `os.path.abspath` is the identity on them;
  the abstract canonicalisation function used by the reference-mode
  comparison is a parameter `canon`.
* The filesystem is a list of existing directories plus a list of file
  records.  `os.walk root` enumerates, in list order, the files whose
  directory lies under `root` (equal to it, or extending it past a `/`).
* MD5 is a pure function of file content and the spec declares collisions
  out of scope, so the digest of a readable file is modelled as the file
  content itself (a `Nat`); a file whose read fails yields `none`, exactly
  as `get_file_hash` returns `None` on any exception.
* Per-file destructive-action success (deletion / move, including the
  `makedirs`) is the file attribute `movable`; a failed action leaves the
  source in place and produces no deletion / move, as in the scripts.
* Python's `list.sort(key, reverse=True)` is a stable descending sort; it
  is modelled by a stable insertion sort that moves an element past exactly
  the elements whose key is strictly greater.
* A Python script that runs to completion (or returns early from `main`)
  exits with status 0; the model records that in `exitCode`.
-/

set_option linter.unusedVariables false

/-- A filesystem path: a list of characters (Python `str`). -/
abbrev FPath := List Char

/-- Shorthand turning a string literal into a path. -/
def pstr (s : String) : FPath := s.toList

/-- `os.path.join d n` for a directory and a file name. -/
def joinP (d n : FPath) : FPath := d ++ '/' :: n

/-- `d` lies in the tree rooted at `root`: it is the root itself or extends
it past a path separator.  This is how `os.walk root` reaches a directory. -/
def isUnder (root d : FPath) : Bool := d == root || (root ++ ['/']).isPrefixOf d

/-- `os.path.relpath p root` for the files the scripts feed it (paths lying
under `root`); other inputs are returned unchanged. -/
def relpathP (p root : FPath) : FPath :=
  if (root ++ ['/']).isPrefixOf p then p.drop (root.length + 1) else p

/-- Character test used to split a path at its last separator. -/
def notSlash (c : Char) : Bool := c ≠ '/'

/-- `os.path.dirname`: everything before the last `/`. -/
def dirnameP (p : FPath) : FPath :=
  ((p.reverse.dropWhile notSlash).drop 1).reverse

/-- `os.path.basename`: everything after the last `/`. -/
def basenameP (p : FPath) : FPath :=
  (p.reverse.takeWhile notSlash).reverse

/-- `str.lower` (ASCII case folding suffices for the extension sets). -/
def lowerP (p : FPath) : FPath := p.map Char.toLower

/-- `pathlib.Path(name).suffix`: the last dot of `name` and what follows it,
empty when there is no dot or the only dot starts the name. -/
def suffixP (name : FPath) : FPath :=
  let stem := name.reverse.takeWhile (fun c => c ≠ '.')
  if stem.length + 1 < name.length then '.' :: stem.reverse else []

/-- Python's substring test `pat in l`. -/
def hasSub : FPath → FPath → Bool
  | [], pat => pat.isEmpty
  | c :: t, pat => pat.isPrefixOf (c :: t) || hasSub t pat

/-- One filesystem entry.  `content` determines the digest; `readable` is
whether reading it succeeds; `movable` is whether a destructive action
(deletion or move) on it succeeds.  `dateTaken` / `dateMod` are the strings
the external metadata provider returns for it. -/
structure PFile where
  dir : FPath
  name : FPath
  content : Nat
  readable : Bool
  size : Nat
  mtime : Nat
  dateTaken : FPath
  dateMod : FPath
  movable : Bool
deriving DecidableEq

/-- A filesystem: the set of existing directories and the files. -/
structure FS where
  dirs : List FPath
  files : List PFile
deriving DecidableEq

/-- The absolute path of a file record. -/
def filePath (f : PFile) : FPath := joinP f.dir f.name

/-- `get_file_hash` (identical in both scripts): the MD5 hex digest of the
file content on success, `None` on any read failure.  The digest is the
content itself, per the spec's content-identity invariant. -/
def get_file_hash (f : PFile) : Option Nat :=
  if f.readable then some f.content else none

/-! ## `compare_and_delete_duplicates.py` (reference mode) -/

namespace Compare

/-- Configured reference root (files here are preserved). -/
def REFERENCE_DIR : FPath := pstr "D:/Photos/Reference"

/-- Configured target root (duplicates here are deleted). -/
def TARGET_DIR : FPath := pstr "D:/Photos/Target_To_Clean"

/-- The extension allow-set of this script. -/
def EXTENSIONS : List FPath :=
  [pstr ".jpg", pstr ".jpeg", pstr ".png", pstr ".bmp", pstr ".gif",
   pstr ".tiff", pstr ".webp", pstr ".heic",
   pstr ".mp4", pstr ".mov", pstr ".avi", pstr ".mkv", pstr ".wmv",
   pstr ".flv", pstr ".ts"]

/-- `Path(file).suffix.lower() in EXTENSIONS`. -/
def extOK (name : FPath) : Bool := EXTENSIONS.contains (lowerP (suffixP name))

/-- `find_media_files`: the files under `root` passing the extension filter,
in scan order; nothing when `root` does not exist. -/
def find_media_files (fs : FS) (root : FPath) : List PFile :=
  if fs.dirs.contains root then
    fs.files.filter (fun f => isUnder root f.dir && extOK f.name)
  else []

/-- `reference_hashes[h] = v`: replace the binding if present, else append. -/
def mapSet : List (Nat × FPath) → Nat → FPath → List (Nat × FPath)
  | [], k, v => [(k, v)]
  | (k2, v2) :: rest, k, v =>
    if k2 = k then (k, v) :: rest else (k2, v2) :: mapSet rest k v

/-- Dictionary lookup. -/
def lookupM : List (Nat × FPath) → Nat → Option FPath
  | [], _ => none
  | (k, v) :: rest, h => if k = h then some v else lookupM rest h

/-- Step 1 of `main`: fold the reference files into `digest ↦ path`,
skipping files whose hash fails; a later file with the same digest
overwrites the stored path. -/
def buildRefMap (l : List PFile) : List (Nat × FPath) :=
  l.foldl (fun m f =>
    match get_file_hash f with
    | none => m
    | some h => mapSet m h (filePath f)) []

/-- One CSV row of `deletion_log.csv`. -/
structure RefRow where
  status : FPath
  deletedPath : FPath
  keptPath : FPath
  sizeBytes : Nat
deriving DecidableEq

/-- The condition under which the step-2 loop deletes a target file: its
hash succeeds, the digest is in the reference map, the canonicalised paths
differ, and the `getsize`/`remove` calls succeed. -/
def delCond (m : List (Nat × FPath)) (canon : FPath → FPath) (f : PFile) : Bool :=
  match get_file_hash f with
  | none => false
  | some h =>
    match lookupM m h with
    | none => false
    | some orig => !(canon (filePath f) == canon orig) && f.movable

/-- The observable outcome of a run of `main`. -/
structure RefResult where
  refMap : List (Nat × FPath)
  scannedRef : List PFile
  scannedTgt : List PFile
  deleted : List PFile
  rows : List RefRow
  deletedSize : Nat
  finalFs : FS
  exitCode : Nat
deriving DecidableEq

/-- `main`: abort (exit 0, nothing scanned) when either configured root is
missing; otherwise index the reference tree, then delete every target file
satisfying `delCond`, one log row per deletion. -/
def main (canon : FPath → FPath) (fs : FS) : RefResult :=
  if fs.dirs.contains REFERENCE_DIR && fs.dirs.contains TARGET_DIR then
    let refFiles := find_media_files fs REFERENCE_DIR
    let m := buildRefMap refFiles
    let tgtFiles := find_media_files fs TARGET_DIR
    let del := tgtFiles.filter (delCond m canon)
    let delPaths := del.map filePath
    { refMap := m
      scannedRef := refFiles
      scannedTgt := tgtFiles
      deleted := del
      rows := del.map (fun f =>
        { status := pstr "Deleted"
          deletedPath := filePath f
          keptPath :=
            match get_file_hash f with
            | none => []
            | some h => (lookupM m h).getD []
          sizeBytes := f.size })
      deletedSize := (del.map (fun f => f.size)).sum
      finalFs :=
        { dirs := fs.dirs
          files := fs.files.filter (fun f => !(delPaths.contains (filePath f))) }
      exitCode := 0 }
  else
    { refMap := [], scannedRef := [], scannedTgt := [], deleted := [],
      rows := [], deletedSize := 0, finalFs := fs, exitCode := 0 }

end Compare

/-! ## `remove_duplicate_photos_by_Gemini.py` (single-tree mode) -/

namespace SingleTree

/-- The scan root and backup root.  The script hardcodes them
(`defaultConfig`); the model passes them explicitly, as the spec's
configuration section describes. -/
structure Config where
  target : FPath
  backup : FPath
deriving DecidableEq

/-- Hardcoded scan root of the script. -/
def TARGET_DRIVE : FPath := pstr "D:/D"

/-- Hardcoded backup root of the script. -/
def BACKUP_DIR : FPath := pstr "D:/Duplicate_Backup"

/-- The configuration the script actually runs with. -/
def defaultConfig : Config := { target := TARGET_DRIVE, backup := BACKUP_DIR }

/-- The extension allow-set of this script. -/
def EXTENSIONS : List FPath :=
  [pstr ".jpg", pstr ".jpeg", pstr ".png", pstr ".bmp", pstr ".gif",
   pstr ".tiff",
   pstr ".mp4", pstr ".mov", pstr ".avi", pstr ".mkv", pstr ".wmv",
   pstr ".flv"]

/-- `Path(file).suffix.lower() in EXTENSIONS`. -/
def extOK (name : FPath) : Bool := EXTENSIONS.contains (lowerP (suffixP name))

/-- The denylist marker strings of the retention sort key. -/
def googleEn : FPath := pstr "Google Photos"

/-- Korean variant of the denylist marker. -/
def googleKo : FPath := pstr "Google 포토"

/-- The in-memory record the scan loop builds per file (the `info` dict). -/
structure Info where
  title : FPath
  size : Nat
  dateTaken : FPath
  dateMod : FPath
  path : FPath
  mtime : Nat
  movable : Bool
deriving DecidableEq

/-- Build the `info` record of a file. -/
def toInfo (f : PFile) : Info :=
  { title := f.name, size := f.size, dateTaken := f.dateTaken,
    dateMod := f.dateMod, path := filePath f, mtime := f.mtime,
    movable := f.movable }

/-- The scan loop: files under the target whose directory does not have the
backup root as a plain string prefix (the `startswith` guard) and whose
extension is allowed; nothing when the target root does not exist. -/
def scanFiles (cfg : Config) (fs : FS) : List PFile :=
  if fs.dirs.contains cfg.target then
    fs.files.filter (fun f =>
      isUnder cfg.target f.dir && !(cfg.backup.isPrefixOf f.dir) && extOK f.name)
  else []

/-- `files_dict.setdefault(h, []).append(i)`: append to the group of `h`,
creating the group at the end of the dictionary on first encounter. -/
def dictInsert : List (Nat × List Info) → Nat → Info → List (Nat × List Info)
  | [], h, i => [(h, [i])]
  | (k, g) :: rest, h, i =>
    if k = h then (k, g ++ [i]) :: rest else (k, g) :: dictInsert rest h i

/-- Fold the scanned files into `files_dict`, skipping hash failures. -/
def buildDict (l : List PFile) : List (Nat × List Info) :=
  l.foldl (fun d f =>
    match get_file_hash f with
    | none => d
    | some h => dictInsert d h (toInfo f)) []

/-- The composite sort key: (path does not contain a denylist marker,
length of the file name). -/
def keyOf (x : Info) : Bool × Nat :=
  (!(hasSub x.path googleEn || hasSub x.path googleKo), x.title.length)

/-- Strict lexicographic greater-than on sort keys (`true > false`). -/
def keyGT : Bool × Nat → Bool × Nat → Bool
  | (b1, n1), (b2, n2) => (b1 && !b2) || (b1 == b2 && decide (n2 < n1))

/-- Stable descending insertion: `a` moves past exactly the elements with a
strictly greater key, so equal keys preserve encounter order. -/
def insertKeep (a : Info) : List Info → List Info
  | [] => [a]
  | b :: bs => if keyGT (keyOf b) (keyOf a) then b :: insertKeep a bs else a :: b :: bs

/-- `info_list.sort(key=..., reverse=True)`: stable descending sort. -/
def sortKeep (l : List Info) : List Info := l.foldr insertKeep []

/-- The status written in a CSV row of this script. -/
inductive FStatus
  | keep
  | moveToBackup
deriving DecidableEq

/-- One CSV row of `duplicate_media_report.csv`. -/
structure Row where
  status : FStatus
  title : FPath
  size : Nat
  dateTaken : FPath
  dateMod : FPath
  path : FPath
deriving DecidableEq

/-- The row written for a group member. -/
def mkRow (s : FStatus) (x : Info) : Row :=
  { status := s, title := x.title, size := x.size, dateTaken := x.dateTaken,
    dateMod := x.dateMod, path := x.path }

/-- `os.path.join(BACKUP_DIR, os.path.relpath(p, TARGET_DRIVE))`. -/
def destOf (cfg : Config) (p : FPath) : FPath :=
  joinP cfg.backup (relpathP p cfg.target)

/-- Rows of one dictionary group: for a duplicate group (≥ 2 members), one
row per member in sorted order — the keeper first with status `keep`, then
each remaining member with status `moveToBackup` whether or not its move
succeeds (the status is assigned before the attempt); a group of one member
produces no row. -/
def groupRows (g : List Info) : List Row :=
  if 1 < g.length then
    match sortKeep g with
    | [] => []
    | k :: rest => mkRow FStatus.keep k :: rest.map (mkRow FStatus.moveToBackup)
  else []

/-- The members of one group whose move is attempted and succeeds: every
sorted member after the keeper whose destructive action works. -/
def groupMoved (g : List Info) : List Info :=
  if 1 < g.length then (sortKeep g).tail.filter (fun x => x.movable) else []

/-- The observable outcome of a run of `run_auto_backup`. -/
structure STResult where
  scanned : List PFile
  dict : List (Nat × List Info)
  rows : List Row
  movedInfos : List Info
  moved : List (FPath × FPath)
  movedSize : Nat
  finalFs : FS
  exitCode : Nat
deriving DecidableEq

/-- Relocate a successfully moved file to its destination; other files are
untouched. -/
def relocate (cfg : Config) (srcs : List FPath) (f : PFile) : PFile :=
  if srcs.contains (filePath f) then
    { f with dir := dirnameP (destOf cfg (filePath f)),
             name := basenameP (destOf cfg (filePath f)) }
  else f

/-- `run_auto_backup`: scan, group by digest, then per duplicate group keep
the sorted head and move the rest (creating the destination directory) —
a failed move leaves its source in place — writing one row per member of
every duplicate group.  The script performs no existence check and always
exits with status 0. -/
def run_auto_backup (cfg : Config) (fs : FS) : STResult :=
  let scanned := scanFiles cfg fs
  let dict := buildDict scanned
  let movedInfos := dict.flatMap (fun kg => groupMoved kg.2)
  let srcs := movedInfos.map (fun x => x.path)
  { scanned := scanned
    dict := dict
    rows := dict.flatMap (fun kg => groupRows kg.2)
    movedInfos := movedInfos
    moved := movedInfos.map (fun x => (x.path, destOf cfg x.path))
    movedSize := (movedInfos.map (fun x => x.size)).sum
    finalFs :=
      { dirs := fs.dirs ++ movedInfos.map (fun x => dirnameP (destOf cfg x.path))
        files := fs.files.map (relocate cfg srcs) }
    exitCode := 0 }

end SingleTree

/-! ## Specification-side views of the dictionary (used only in proofs) -/

namespace SingleTree

/-- The group a digest ends up with: the scanned files hashing to it, in
scan order, as `info` records. -/
def groupSpec (l : List PFile) (h : Nat) : List Info :=
  (l.filter (fun f => get_file_hash f == some h)).map toInfo

/-- First-match dictionary lookup. -/
def dictFind : List (Nat × List Info) → Nat → Option (List Info)
  | [], _ => none
  | (k, g) :: rest, h => if k = h then some g else dictFind rest h

end SingleTree

/-! ## Concrete inputs used by witnesses and counterexamples -/

/-- Build a file record from literals (size 1, epoch timestamps). -/
def mkFile (d n : String) (c : Nat) (rd mv : Bool) : PFile :=
  { dir := pstr d, name := pstr n, content := c, readable := rd, size := 1,
    mtime := 0, dateTaken := [], dateMod := [], movable := mv }

/-- A record named `img1.jpg` (8 characters). -/
def exImg1 : SingleTree.Info := SingleTree.toInfo (mkFile "D:/D/a" "img1.jpg" 7 true true)

/-- A record named `image_001.jpg` (13 characters), same digest. -/
def exImage001 : SingleTree.Info := SingleTree.toInfo (mkFile "D:/D/b" "image_001.jpg" 7 true true)

/-- A scan tree with one duplicate pair and one unique file. -/
def fsDup : FS :=
  { dirs := [pstr "D:/D"]
    files := [mkFile "D:/D/a" "img1.jpg" 7 true true,
              mkFile "D:/D/b" "image_001.jpg" 7 true true,
              mkFile "D:/D/a" "solo.jpg" 9 true true] }

/-- A scan tree holding a single file (a group of size 1). -/
def fsSolo : FS :=
  { dirs := [pstr "D:/D"], files := [mkFile "D:/D/a" "solo.jpg" 9 true true] }

/-- A duplicate pair whose non-kept member cannot be moved. -/
def fsFail : FS :=
  { dirs := [pstr "D:/D"]
    files := [mkFile "D:/D/a" "abcd.jpg" 7 true true,
              mkFile "D:/D/b" "b.jpg" 7 true false] }

/-- A reference tree with one original and a target tree with one copy of
it plus one unmatched file. -/
def fsRef : FS :=
  { dirs := [Compare.REFERENCE_DIR, Compare.TARGET_DIR]
    files := [mkFile "D:/Photos/Reference" "orig.jpg" 5 true true,
              mkFile "D:/Photos/Target_To_Clean" "copy.jpg" 5 true true,
              mkFile "D:/Photos/Target_To_Clean" "uniq.jpg" 6 true true] }

/-- A filesystem on which neither configured root exists. -/
def fsNone : FS := { dirs := [], files := [] }

/-- A target tree with an unreadable file next to `fsRef`'s content. -/
def fsUnread : FS :=
  { dirs := [Compare.REFERENCE_DIR, Compare.TARGET_DIR]
    files := [mkFile "D:/Photos/Reference" "orig.jpg" 5 true true,
              mkFile "D:/Photos/Target_To_Clean" "bad.jpg" 5 false true] }

/-- `fsUnread` with the unreadable file removed. -/
def fsUnreadLess : FS :=
  { dirs := [Compare.REFERENCE_DIR, Compare.TARGET_DIR]
    files := [mkFile "D:/Photos/Reference" "orig.jpg" 5 true true] }

/-! ## Path lemmas -/

theorem pfxBool_iff {a b : FPath} : a.isPrefixOf b = true ↔ a <+: b := by
  exact List.isPrefixOf_iff_prefix

theorem take_eq_of_pfx {a p : FPath} (h : a <+: p) {k : Nat} (hk : k ≤ a.length) :
    p.take k = a.take k := by
  obtain ⟨t, rfl⟩ := h
  exact List.take_append_of_le_length hk

theorem isUnder_path_pfx {root d : FPath} (h : isUnder root d = true) (n : FPath) :
    (root ++ ['/']) <+: joinP d n := by
  unfold isUnder at h
  rcases Bool.or_eq_true_iff.mp h with h1 | h2
  · have : d = root := by simpa using h1
    subst this
    exact ⟨n, by simp [joinP]⟩
  · exact (pfxBool_iff.mp h2).trans ⟨'/' :: n, rfl⟩

theorem notSlash_true {c : Char} (h : c ≠ '/') : notSlash c = true := by
  simp [notSlash, h]

theorem notSlash_slash : notSlash '/' = false := by
  simp [notSlash]

theorem dirnameP_join {d n : FPath} (h : ('/' : Char) ∉ n) : dirnameP (joinP d n) = d := by
  unfold dirnameP joinP
  have h1 : ∀ c ∈ n.reverse, notSlash c = true := by
    intro c hc
    exact notSlash_true (fun hcc => h (by simpa [hcc] using List.mem_reverse.mp hc))
  rw [List.reverse_append]
  simp only [List.reverse_cons]
  rw [List.append_assoc]
  rw [List.dropWhile_append_of_pos h1]
  rw [List.singleton_append, List.dropWhile_cons_of_neg (by simp [notSlash])]
  simp

theorem basenameP_join {d n : FPath} (h : ('/' : Char) ∉ n) : basenameP (joinP d n) = n := by
  unfold basenameP joinP
  have h1 : ∀ c ∈ n.reverse, notSlash c = true := by
    intro c hc
    exact notSlash_true (fun hcc => h (by simpa [hcc] using List.mem_reverse.mp hc))
  rw [List.reverse_append]
  simp only [List.reverse_cons]
  rw [List.append_assoc]
  rw [List.takeWhile_append_of_pos h1]
  rw [List.singleton_append, List.takeWhile_cons_of_neg (by simp [notSlash])]
  simp

theorem backup_pfx_dirnameP (b r : FPath) : b <+: dirnameP (joinP b r) := by
  unfold dirnameP joinP
  rw [List.reverse_append]
  simp only [List.reverse_cons]
  rw [List.append_assoc, List.dropWhile_append]
  split
  · rw [List.singleton_append, List.dropWhile_cons_of_neg (by simp [notSlash])]
    simp
  · rename_i hne
    rcases hw : (r.reverse.dropWhile notSlash) with _ | ⟨x, xs⟩
    · rw [hw] at hne; simp at hne
    · simp only [List.cons_append, List.drop_succ_cons, List.drop_zero]
      rw [List.reverse_append]
      exact ⟨['/'] ++ xs.reverse, by simp⟩

theorem dropWhile_slash {l : FPath} (h : ('/' : Char) ∈ l) :
    ∃ t, l.dropWhile notSlash = '/' :: t := by
  induction l with
  | nil => simp at h
  | cons c cs ih =>
    by_cases hc : c = '/'
    · subst hc
      exact ⟨cs, by rw [List.dropWhile_cons_of_neg (by simp [notSlash])]⟩
    · rcases List.mem_cons.mp h with h1 | h2
      · exact absurd h1.symm hc
      · obtain ⟨t, ht⟩ := ih h2
        refine ⟨t, ?_⟩
        rw [List.dropWhile_cons_of_pos (notSlash_true hc)]
        exact ht

theorem join_dirname_basename {p : FPath} (h : ('/' : Char) ∈ p) :
    joinP (dirnameP p) (basenameP p) = p := by
  obtain ⟨t, ht⟩ := dropWhile_slash (l := p.reverse) (by simpa using h)
  unfold joinP dirnameP basenameP
  rw [ht]
  simp only [List.drop_succ_cons, List.drop_zero]
  conv_rhs => rw [← List.reverse_reverse p, ← List.takeWhile_append_dropWhile
    (p := notSlash) (l := p.reverse)]
  rw [ht, List.reverse_append]
  simp

/-! ## Sort-key and stable-sort lemmas -/

namespace SingleTree

theorem keyGT_irrefl (k : Bool × Nat) : keyGT k k = false := by
  obtain ⟨b, n⟩ := k
  cases b <;> simp [keyGT]

theorem keyGT_asymm {k1 k2 : Bool × Nat} (h : keyGT k1 k2 = true) :
    keyGT k2 k1 = false := by
  obtain ⟨b1, n1⟩ := k1
  obtain ⟨b2, n2⟩ := k2
  cases b1 <;> cases b2 <;> simp_all [keyGT] <;> omega

theorem keyGT_le_trans {k1 k2 k3 : Bool × Nat} (h1 : keyGT k1 k2 = false)
    (h2 : keyGT k2 k3 = false) : keyGT k1 k3 = false := by
  obtain ⟨b1, n1⟩ := k1
  obtain ⟨b2, n2⟩ := k2
  obtain ⟨b3, n3⟩ := k3
  cases b1 <;> cases b2 <;> cases b3 <;> simp_all [keyGT] <;> omega

theorem keyGT_ne_of_gt {k1 k2 : Bool × Nat} (h : keyGT k1 k2 = true) : k1 ≠ k2 := by
  intro he
  rw [he] at h
  exact absurd h (by simp [keyGT_irrefl])

theorem insertKeep_perm (a : Info) (l : List Info) : List.Perm (insertKeep a l) (a :: l) := by
  induction l with
  | nil => exact List.Perm.refl _
  | cons b bs ih =>
    unfold insertKeep
    split
    · exact (ih.cons b).trans (List.Perm.swap a b bs)
    · exact List.Perm.refl _

theorem sortKeep_perm (l : List Info) : List.Perm (sortKeep l) l := by
  induction l with
  | nil => exact List.Perm.refl _
  | cons a t ih => exact (insertKeep_perm a (sortKeep t)).trans (ih.cons a)

/-- The ordering invariant of the sorted output: no later element has a
strictly greater key than an earlier one. -/
def SortedDesc (l : List Info) : Prop :=
  List.Pairwise (fun x y => keyGT (keyOf y) (keyOf x) = false) l

theorem insertKeep_sorted {a : Info} {l : List Info} (hl : SortedDesc l) :
    SortedDesc (insertKeep a l) := by
  induction l with
  | nil => exact List.pairwise_singleton _ _
  | cons b bs ih =>
    unfold insertKeep
    rcases List.pairwise_cons.mp hl with ⟨hb, hbs⟩
    split
    · rename_i hgt
      refine List.pairwise_cons.mpr ⟨?_, ih hbs⟩
      intro y hy
      rcases List.mem_cons.mp ((insertKeep_perm a bs).mem_iff.mp hy) with h1 | h2
      · subst h1
        exact keyGT_asymm hgt
      · exact hb y h2
    · rename_i hng
      refine List.pairwise_cons.mpr ⟨?_, hl⟩
      intro y hy
      rcases List.mem_cons.mp hy with h1 | h2
      · subst h1
        exact Bool.eq_false_iff.mpr hng
      · exact keyGT_le_trans (hb y h2) (Bool.eq_false_iff.mpr hng)

theorem sortKeep_sorted (l : List Info) : SortedDesc (sortKeep l) := by
  induction l with
  | nil => exact List.Pairwise.nil
  | cons a t ih => exact insertKeep_sorted ih

theorem insertKeep_filter_eq (a : Info) (l : List Info) :
    (insertKeep a l).filter (fun x => keyOf x == keyOf a) =
      a :: l.filter (fun x => keyOf x == keyOf a) := by
  induction l with
  | nil => simp [insertKeep]
  | cons b bs ih =>
    unfold insertKeep
    split
    · rename_i hgt
      have hb : (keyOf b == keyOf a) = false := by
        simp only [beq_eq_false_iff_ne, ne_eq]
        exact fun he => keyGT_ne_of_gt hgt he
      rw [List.filter_cons_of_neg (by simp [hb]), ih, List.filter_cons_of_neg (by simp [hb])]
    · rw [List.filter_cons_of_pos (by simp)]

theorem insertKeep_filter_ne (a : Info) (l : List Info) {k : Bool × Nat}
    (hk : k ≠ keyOf a) :
    (insertKeep a l).filter (fun x => keyOf x == k) =
      l.filter (fun x => keyOf x == k) := by
  induction l with
  | nil => simp [insertKeep, hk.symm]
  | cons b bs ih =>
    unfold insertKeep
    split
    · by_cases hb : keyOf b == k
      · rw [List.filter_cons_of_pos (by simp [hb]), ih, List.filter_cons_of_pos (by simp [hb])]
      · rw [List.filter_cons_of_neg (by simpa using hb), ih,
          List.filter_cons_of_neg (by simpa using hb)]
    · rw [List.filter_cons_of_neg (by simp [Ne.symm hk])]

theorem sortKeep_filter_key (l : List Info) (k : Bool × Nat) :
    (sortKeep l).filter (fun x => keyOf x == k) = l.filter (fun x => keyOf x == k) := by
  induction l with
  | nil => rfl
  | cons a t ih =>
    show (insertKeep a (sortKeep t)).filter _ = _
    by_cases hk : k = keyOf a
    · subst hk
      rw [insertKeep_filter_eq, ih, List.filter_cons_of_pos (by simp)]
    · rw [insertKeep_filter_ne a _ hk, ih, List.filter_cons_of_neg (by simp [Ne.symm hk])]

theorem sortKeep_head_max {g : List Info} {k : Info} {rest : List Info}
    (hs : sortKeep g = k :: rest) :
    ∀ x ∈ g, keyGT (keyOf x) (keyOf k) = false := by
  intro x hx
  have hmem : x ∈ k :: rest := hs ▸ (sortKeep_perm g).symm.mem_iff.mp hx
  rcases List.mem_cons.mp hmem with h1 | h2
  · subst h1; exact keyGT_irrefl _
  · have := sortKeep_sorted g
    rw [hs] at this
    exact (List.pairwise_cons.mp this).1 x h2

theorem sortKeep_head_first {g : List Info} {k : Info} {rest : List Info}
    (hs : sortKeep g = k :: rest) :
    (g.filter (fun x => keyOf x == keyOf k)).head? = some k := by
  have := sortKeep_filter_key g (keyOf k)
  rw [hs, List.filter_cons_of_pos (by simp)] at this
  rw [← this]
  rfl

end SingleTree

/-! ## Generic counting helpers -/

theorem length_le_one_of_map_const {α β : Type} [DecidableEq β] {l : List α} {f : α → β}
    {c : β} (hnd : (l.map f).Nodup) (hc : ∀ x ∈ l, f x = c) : l.length ≤ 1 := by
  match l with
  | [] => simp
  | [x] => simp
  | x :: y :: t =>
    exfalso
    simp only [List.map_cons, List.nodup_cons] at hnd
    exact hnd.1 (by
      rw [hc x (by simp), ← hc y (by simp)]
      exact List.mem_cons_self _ _)

theorem length_filter_eq_one_of_nodup {α β : Type} [BEq β] [LawfulBEq β] {l : List α} (f : α → β)
    (hnd : (l.map f).Nodup) {x : α} (hx : x ∈ l) :
    (l.filter (fun y => f y == f x)).length = 1 := by
  induction l with
  | nil => simp at hx
  | cons a t ih =>
    simp only [List.map_cons, List.nodup_cons] at hnd
    by_cases hfa : f a = f x
    · rw [List.filter_cons_of_pos (by simp [hfa])]
      have hnil : t.filter (fun y => f y == f x) = [] := by
        rw [List.filter_eq_nil_iff]
        intro b hb
        simp only [beq_iff_eq]
        intro hfb
        exact hnd.1 (by rw [hfa, ← hfb]; exact List.mem_map_of_mem f hb)
      simp [hnil]
    · rw [List.filter_cons_of_neg (by simp [hfa])]
      rcases List.mem_cons.mp hx with h1 | h2
      · exact absurd (by rw [h1]) hfa
      · exact ih hnd.2 h2

theorem filter_flatMap_single {α β : Type} (L : List α) (F : α → List β) (p : β → Bool)
    (keyf : α → Nat) (hnd : (L.map keyf).Nodup) {a : α} (ha : a ∈ L)
    (h0 : ∀ b ∈ L, keyf b ≠ keyf a → (F b).filter p = []) :
    (L.flatMap F).filter p = (F a).filter p := by
  rw [List.filter_flatMap]
  obtain ⟨s, t, rfl⟩ := List.append_of_mem ha
  have key_ne : ∀ b, b ∈ s ∨ b ∈ t → keyf b ≠ keyf a := by
    intro b hb heq
    rw [List.map_append, List.map_cons] at hnd
    rcases List.nodup_append.mp hnd with ⟨hs, hat, hdisj⟩
    rcases hb with hb | hb
    · exact hdisj (List.mem_map_of_mem keyf hb) (heq ▸ List.mem_cons_self _ _)
    · exact (List.nodup_cons.mp hat).1 (heq ▸ List.mem_map_of_mem keyf hb)
  rw [List.flatMap_append, List.flatMap_cons]
  have hs : s.flatMap (fun b => (F b).filter p) = [] :=
    List.flatMap_eq_nil_iff.mpr
      (fun b hb => h0 b (List.mem_append_left _ hb) (key_ne b (Or.inl hb)))
  have ht : t.flatMap (fun b => (F b).filter p) = [] :=
    List.flatMap_eq_nil_iff.mpr
      (fun b hb => h0 b (List.mem_append_right _ (List.mem_cons_of_mem _ hb))
        (key_ne b (Or.inr hb)))
  rw [hs, ht]
  simp

/-! ## Dictionary characterisation -/

namespace SingleTree

theorem groupSpec_cons (f : PFile) (t : List PFile) (h : Nat) :
    groupSpec (f :: t) h =
      if get_file_hash f == some h then toInfo f :: groupSpec t h else groupSpec t h := by
  simp only [groupSpec, List.filter_cons]
  split <;> simp

theorem dictFind_dictInsert_eq (d : List (Nat × List Info)) (h : Nat) (i : Info) :
    dictFind (dictInsert d h i) h = some (((dictFind d h).getD []) ++ [i]) := by
  induction d with
  | nil => simp [dictInsert, dictFind]
  | cons e rest ih =>
    obtain ⟨k, g⟩ := e
    by_cases hk : k = h
    · subst hk
      simp [dictInsert, dictFind]
    · simp [dictInsert, dictFind, hk, ih]

theorem dictFind_dictInsert_ne (d : List (Nat × List Info)) {h k : Nat} (i : Info)
    (hne : k ≠ h) : dictFind (dictInsert d h i) k = dictFind d k := by
  induction d with
  | nil => simp [dictInsert, dictFind, Ne.symm hne]
  | cons e rest ih =>
    obtain ⟨k2, g⟩ := e
    by_cases hk : k2 = h
    · subst hk
      simp [dictInsert, dictFind, Ne.symm hne]
    · by_cases hk2 : k2 = k
      · subst hk2
        simp [dictInsert, dictFind, hk]
      · simp [dictInsert, dictFind, hk, hk2, ih]

theorem buildDict_aux_find (l : List PFile) :
    ∀ (d : List (Nat × List Info)) (h : Nat),
      (dictFind (l.foldl (fun d f =>
        match get_file_hash f with
        | none => d
        | some h2 => dictInsert d h2 (toInfo f)) d) h).getD []
      = (dictFind d h).getD [] ++ groupSpec l h := by
  induction l with
  | nil => intro d h; simp [groupSpec]
  | cons f t ih =>
    intro d h
    rw [List.foldl_cons]
    cases hf : get_file_hash f with
    | none =>
      rw [groupSpec_cons, if_neg (by simp [hf])]
      exact ih d h
    | some h2 =>
      by_cases hh : h2 = h
      · subst hh
        rw [groupSpec_cons, if_pos (by simp [hf]), ih, dictFind_dictInsert_eq]
        simp
      · rw [groupSpec_cons, if_neg (by simp [hf, hh]), ih,
          dictFind_dictInsert_ne _ _ (fun he => hh he.symm)]

theorem buildDict_aux_none (l : List PFile) :
    ∀ (d : List (Nat × List Info)) (h : Nat),
      dictFind (l.foldl (fun d f =>
        match get_file_hash f with
        | none => d
        | some h2 => dictInsert d h2 (toInfo f)) d) h = none
      ↔ (dictFind d h = none ∧ groupSpec l h = []) := by
  induction l with
  | nil => intro d h; simp [groupSpec]
  | cons f t ih =>
    intro d h
    rw [List.foldl_cons]
    cases hf : get_file_hash f with
    | none =>
      rw [groupSpec_cons, if_neg (by simp [hf])]
      exact ih d h
    | some h2 =>
      by_cases hh : h2 = h
      · subst hh
        rw [groupSpec_cons, if_pos (by simp [hf])]
        constructor
        · intro hn
          rcases (ih _ h2).mp hn with ⟨hfind, _⟩
          rw [dictFind_dictInsert_eq] at hfind
          exact absurd hfind (by simp)
        · intro ⟨_, hc⟩
          exact absurd hc (by simp)
      · rw [groupSpec_cons, if_neg (by simp [hf, hh])]
        rw [ih, dictFind_dictInsert_ne _ _ (fun he => hh he.symm)]

theorem buildDict_find (l : List PFile) (h : Nat) :
    (dictFind (buildDict l) h).getD [] = groupSpec l h := by
  have := buildDict_aux_find l [] h
  simpa [buildDict, dictFind] using this

theorem buildDict_find_none (l : List PFile) (h : Nat) :
    dictFind (buildDict l) h = none ↔ groupSpec l h = [] := by
  have := buildDict_aux_none l [] h
  simpa [buildDict, dictFind] using this

theorem dictInsert_keys (d : List (Nat × List Info)) (h : Nat) (i : Info) :
    (dictInsert d h i).map Prod.fst =
      if h ∈ d.map Prod.fst then d.map Prod.fst else d.map Prod.fst ++ [h] := by
  induction d with
  | nil => simp [dictInsert]
  | cons e rest ih =>
    obtain ⟨k, g⟩ := e
    by_cases hk : k = h
    · subst hk
      simp [dictInsert]
    · simp only [dictInsert, if_neg hk, List.map_cons, ih, List.mem_cons]
      by_cases hm : h ∈ rest.map Prod.fst
      · rw [if_pos hm, if_pos (Or.inr hm)]
      · rw [if_neg hm, if_neg (by rintro (he | hm2); exact hk he.symm; exact hm hm2)]
        simp

theorem buildDict_keys_nodup (l : List PFile) : ((buildDict l).map Prod.fst).Nodup := by
  suffices hgen : ∀ (d : List (Nat × List Info)), (d.map Prod.fst).Nodup →
      ((l.foldl (fun d f =>
        match get_file_hash f with
        | none => d
        | some h2 => dictInsert d h2 (toInfo f)) d).map Prod.fst).Nodup by
    exact hgen [] (by simp)
  induction l with
  | nil => intro d hd; simpa using hd
  | cons f t ih =>
    intro d hd
    rw [List.foldl_cons]
    cases hf : get_file_hash f with
    | none => exact ih d hd
    | some h2 =>
      refine ih _ ?_
      rw [dictInsert_keys]
      split
      · exact hd
      · rename_i hm
        simp only [List.nodup_append, List.nodup_cons]
        exact ⟨hd, by simp, by simpa [List.disjoint_singleton] using hm⟩

theorem dictFind_eq_some_of_mem {d : List (Nat × List Info)}
    (hnd : (d.map Prod.fst).Nodup) {h : Nat} {g : List Info} (hm : (h, g) ∈ d) :
    dictFind d h = some g := by
  induction d with
  | nil => simp at hm
  | cons e rest ih =>
    obtain ⟨k, g2⟩ := e
    simp only [List.map_cons, List.nodup_cons] at hnd
    rcases List.mem_cons.mp hm with h1 | h2
    · cases h1
      simp [dictFind]
    · have hk : k ≠ h := by
        intro he
        subst he
        exact hnd.1 (List.mem_map_of_mem Prod.fst h2)
      simp [dictFind, hk, ih hnd.2 h2]

theorem mem_of_dictFind_eq_some {d : List (Nat × List Info)} {h : Nat} {g : List Info}
    (hf : dictFind d h = some g) : (h, g) ∈ d := by
  induction d with
  | nil => simp [dictFind] at hf
  | cons e rest ih =>
    obtain ⟨k, g2⟩ := e
    by_cases hk : k = h
    · subst hk
      have hgg : g2 = g := by simpa [dictFind] using hf
      rw [← hgg]
      exact List.mem_cons_self _ _
    · simp only [dictFind, if_neg hk] at hf
      exact List.mem_cons_of_mem _ (ih hf)

theorem mem_buildDict_iff {l : List PFile} {h : Nat} {g : List Info} :
    (h, g) ∈ buildDict l ↔ (g = groupSpec l h ∧ g ≠ []) := by
  constructor
  · intro hm
    have hf := dictFind_eq_some_of_mem (buildDict_keys_nodup l) hm
    have hg := buildDict_find l h
    rw [hf] at hg
    simp only [Option.getD_some] at hg
    refine ⟨hg, ?_⟩
    intro hnil
    have hnone : dictFind (buildDict l) h = none :=
      (buildDict_find_none l h).mpr (by rw [← hg]; exact hnil)
    rw [hf] at hnone
    exact Option.noConfusion hnone
  · intro ⟨hg, hne⟩
    have hnn : dictFind (buildDict l) h ≠ none := by
      intro hc
      rw [buildDict_find_none] at hc
      exact hne (hg.trans hc)
    rcases ho : dictFind (buildDict l) h with _ | g2
    · exact absurd ho hnn
    · have hh := buildDict_find l h
      rw [ho] at hh
      simp only [Option.getD_some] at hh
      have hgg : g2 = g := hh.trans hg.symm
      rw [hgg] at ho
      exact mem_of_dictFind_eq_some ho

theorem mem_groupSpec {l : List PFile} {h : Nat} {x : Info} :
    x ∈ groupSpec l h ↔ ∃ f, f ∈ l ∧ get_file_hash f = some h ∧ toInfo f = x := by
  simp only [groupSpec, List.mem_map, List.mem_filter, beq_iff_eq]
  constructor
  · rintro ⟨f, ⟨hf, hh⟩, hx⟩
    exact ⟨f, hf, hh, hx⟩
  · rintro ⟨f, hf, hh, hx⟩
    exact ⟨f, ⟨hf, hh⟩, hx⟩

theorem group_member_file {l : List PFile} {h : Nat} {g : List Info} {x : Info}
    (hg : (h, g) ∈ buildDict l) (hx : x ∈ g) :
    ∃ f, f ∈ l ∧ get_file_hash f = some h ∧ toInfo f = x :=
  mem_groupSpec.mp ((mem_buildDict_iff.mp hg).1 ▸ hx)

theorem groupSpec_paths_sublist (l : List PFile) (h : Nat) :
    List.Sublist ((groupSpec l h).map Info.path) (l.map filePath) := by
  unfold groupSpec
  rw [List.map_map]
  have hc : (Info.path ∘ toInfo) = filePath := rfl
  rw [hc]
  exact List.Sublist.map filePath (List.filter_sublist l)

theorem group_paths_nodup {l : List PFile} {h : Nat} {g : List Info}
    (hnd : (l.map filePath).Nodup) (hg : (h, g) ∈ buildDict l) :
    (g.map Info.path).Nodup := by
  rw [(mem_buildDict_iff.mp hg).1]
  exact (groupSpec_paths_sublist l h).nodup hnd

theorem group_unique_of_path {l : List PFile} (hnd : (l.map filePath).Nodup)
    {h : Nat} {g : List Info} {x : Info} {h2 : Nat} {g2 : List Info} {y : Info}
    (hg : (h, g) ∈ buildDict l) (hx : x ∈ g)
    (hg2 : (h2, g2) ∈ buildDict l) (hy : y ∈ g2)
    (hp : x.path = y.path) : h = h2 ∧ x = y ∧ g = g2 := by
  obtain ⟨f, hf, hfh, hfx⟩ := group_member_file hg hx
  obtain ⟨f2, hf2, hf2h, hf2y⟩ := group_member_file hg2 hy
  have hpp : filePath f = filePath f2 := by
    have e1 : (toInfo f).path = filePath f := rfl
    have e2 : (toInfo f2).path = filePath f2 := rfl
    rw [← e1, ← e2, hfx, hf2y, hp]
  have hff : f = f2 := List.inj_on_of_nodup_map hnd hf hf2 hpp
  subst hff
  have hh : h = h2 := by
    rw [hfh] at hf2h
    exact Option.some.inj hf2h
  subst hh
  refine ⟨rfl, by rw [← hfx, ← hf2y], ?_⟩
  rw [(mem_buildDict_iff.mp hg).1, (mem_buildDict_iff.mp hg2).1]

end SingleTree

/-! ## Run-level lemmas for the single-tree script -/

namespace SingleTree

theorem run_dict (cfg : Config) (fs : FS) :
    (run_auto_backup cfg fs).dict = buildDict (scanFiles cfg fs) := rfl

theorem run_rows (cfg : Config) (fs : FS) :
    (run_auto_backup cfg fs).rows
      = (buildDict (scanFiles cfg fs)).flatMap (fun kg => groupRows kg.2) := rfl

theorem run_movedInfos (cfg : Config) (fs : FS) :
    (run_auto_backup cfg fs).movedInfos
      = (buildDict (scanFiles cfg fs)).flatMap (fun kg => groupMoved kg.2) := rfl

theorem run_moved (cfg : Config) (fs : FS) :
    (run_auto_backup cfg fs).moved
      = (run_auto_backup cfg fs).movedInfos.map (fun x => (x.path, destOf cfg x.path)) := rfl

theorem run_finalFs_files (cfg : Config) (fs : FS) :
    (run_auto_backup cfg fs).finalFs.files
      = fs.files.map (relocate cfg ((run_auto_backup cfg fs).movedInfos.map (fun x => x.path))) := rfl

theorem run_finalFs_dirs (cfg : Config) (fs : FS) :
    (run_auto_backup cfg fs).finalFs.dirs
      = fs.dirs ++ (run_auto_backup cfg fs).movedInfos.map (fun x => dirnameP (destOf cfg x.path)) := rfl

theorem mem_scanFiles {cfg : Config} {fs : FS} {f : PFile} :
    f ∈ scanFiles cfg fs ↔
      fs.dirs.contains cfg.target = true ∧ f ∈ fs.files ∧
      isUnder cfg.target f.dir = true ∧ cfg.backup.isPrefixOf f.dir = false ∧
      extOK f.name = true := by
  unfold scanFiles
  rcases hc : fs.dirs.contains cfg.target with _ | _
  · simp [hc]
  · rw [if_pos rfl]
    simp only [List.mem_filter, Bool.and_eq_true, Bool.not_eq_true']
    constructor
    · rintro ⟨hf, ⟨⟨h1, h2⟩, h3⟩⟩
      exact ⟨by trivial, hf, h1, h2, h3⟩
    · rintro ⟨_, hf, h1, h2, h3⟩
      exact ⟨hf, ⟨⟨h1, h2⟩, h3⟩⟩


theorem scanFiles_sublist (cfg : Config) (fs : FS) :
    List.Sublist (scanFiles cfg fs) fs.files := by
  unfold scanFiles
  split
  · exact List.filter_sublist fs.files
  · exact List.nil_sublist fs.files

theorem scan_paths_nodup {cfg : Config} {fs : FS}
    (hnd : (fs.files.map filePath).Nodup) :
    ((scanFiles cfg fs).map filePath).Nodup :=
  (List.Sublist.map filePath (scanFiles_sublist cfg fs)).nodup hnd

theorem mem_movedInfos {cfg : Config} {fs : FS} {y : Info} :
    y ∈ (run_auto_backup cfg fs).movedInfos ↔
      ∃ d g, (d, g) ∈ buildDict (scanFiles cfg fs) ∧ y ∈ groupMoved g := by
  rw [run_movedInfos, List.mem_flatMap]
  constructor
  · rintro ⟨⟨d, g⟩, hm, hy⟩
    exact ⟨d, g, hm, hy⟩
  · rintro ⟨d, g, hm, hy⟩
    exact ⟨(d, g), hm, hy⟩

theorem mem_rows {cfg : Config} {fs : FS} {r : Row} :
    r ∈ (run_auto_backup cfg fs).rows ↔
      ∃ d g, (d, g) ∈ buildDict (scanFiles cfg fs) ∧ r ∈ groupRows g := by
  rw [run_rows, List.mem_flatMap]
  constructor
  · rintro ⟨⟨d, g⟩, hm, hy⟩
    exact ⟨d, g, hm, hy⟩
  · rintro ⟨d, g, hm, hy⟩
    exact ⟨(d, g), hm, hy⟩

theorem mem_groupMoved {g : List Info} {y : Info} (hy : y ∈ groupMoved g) :
    y ∈ g ∧ y.movable = true ∧ ∃ k rest, sortKeep g = k :: rest ∧ y ∈ rest := by
  unfold groupMoved at hy
  split at hy
  · rcases List.mem_filter.mp hy with ⟨ht, hmov⟩
    rcases hs : sortKeep g with _ | ⟨k, rest⟩
    · rw [hs] at ht; simp at ht
    · rw [hs] at ht
      simp only [List.tail_cons] at ht
      refine ⟨?_, hmov, k, rest, rfl, ht⟩
      exact (sortKeep_perm g).mem_iff.mp (hs ▸ List.mem_cons_of_mem k ht)
  · simp at hy

theorem groupMoved_of_tail {g : List Info} {k : Info} {rest : List Info}
    (hs : sortKeep g = k :: rest) (hlen : 1 < g.length) {x : Info}
    (hx : x ∈ rest) (hmov : x.movable = true) : x ∈ groupMoved g := by
  unfold groupMoved
  rw [if_pos hlen, hs]
  simp only [List.tail_cons]
  exact List.mem_filter.mpr ⟨hx, hmov⟩

theorem sortKeep_length (g : List Info) : (sortKeep g).length = g.length :=
  (sortKeep_perm g).length_eq

/-- A path lies among the successfully moved sources exactly when its group
member sits after the keeper in the sorted group and its move succeeds. -/
theorem src_mem_iff {cfg : Config} {fs : FS}
    (hnd : (fs.files.map filePath).Nodup)
    {d : Nat} {g : List Info} {x : Info}
    (hg : (d, g) ∈ buildDict (scanFiles cfg fs)) (hx : x ∈ g) :
    x.path ∈ (run_auto_backup cfg fs).movedInfos.map (fun y => y.path) ↔
      ∃ k rest, sortKeep g = k :: rest ∧ x ∈ rest ∧ x.movable = true := by
  have hscannd : ((scanFiles cfg fs).map filePath).Nodup := scan_paths_nodup hnd
  constructor
  · intro hp
    rcases List.mem_map.mp hp with ⟨y, hy, hyp⟩
    rcases mem_movedInfos.mp hy with ⟨d2, g2, hg2, hmy⟩
    rcases mem_groupMoved hmy with ⟨hyg2, hymov, k, rest, hs, hyrest⟩
    rcases group_unique_of_path hscannd hg hx hg2 hyg2 hyp.symm with ⟨_, hxy, hgg⟩
    subst hgg
    exact ⟨k, rest, hs, hxy ▸ hyrest, hxy ▸ hymov⟩
  · rintro ⟨k, rest, hs, hxr, hxmov⟩
    have hlen : 1 < g.length := by
      have := sortKeep_length g
      rw [hs] at this
      rcases rest with _ | ⟨r2, rest2⟩
      · simp at hxr
      · simp only [List.length_cons] at this
        omega
    exact List.mem_map.mpr ⟨x, mem_movedInfos.mpr
      ⟨d, g, hg, groupMoved_of_tail hs hlen hxr hxmov⟩, rfl⟩

theorem relocate_of_not_mem {cfg : Config} {srcs : List FPath} {f : PFile}
    (h : filePath f ∉ srcs) : relocate cfg srcs f = f := by
  unfold relocate
  rw [if_neg]
  intro hc
  exact h (List.elem_iff.mp hc)

theorem relocate_dir_pfx {cfg : Config} {srcs : List FPath} {f : PFile}
    (h : srcs.contains (filePath f) = true) :
    cfg.backup <+: (relocate cfg srcs f).dir := by
  unfold relocate
  rw [if_pos h]
  exact backup_pfx_dirnameP cfg.backup (relpathP (filePath f) cfg.target)

theorem relocate_path {cfg : Config} {srcs : List FPath} {f : PFile}
    (h : srcs.contains (filePath f) = true) :
    filePath (relocate cfg srcs f) = destOf cfg (filePath f) := by
  unfold relocate
  rw [if_pos h]
  show joinP (dirnameP (destOf cfg (filePath f))) (basenameP (destOf cfg (filePath f)))
    = destOf cfg (filePath f)
  apply join_dirname_basename
  show ('/' : Char) ∈ cfg.backup ++ '/' :: relpathP (filePath f) cfg.target
  exact List.mem_append_right _ (List.mem_cons_self _ _)

theorem mem_contains_iff {l : List FPath} {p : FPath} : l.contains p = true ↔ p ∈ l :=
  List.elem_iff

end SingleTree

/-! ## Row lemmas for the single-tree script -/

namespace SingleTree

theorem groupRows_eq {g : List Info} {k : Info} {rest : List Info}
    (hlen : 1 < g.length) (hs : sortKeep g = k :: rest) :
    groupRows g = mkRow FStatus.keep k :: rest.map (mkRow FStatus.moveToBackup) := by
  unfold groupRows
  rw [if_pos hlen, hs]

theorem mkRow_path (s : FStatus) (x : Info) : (mkRow s x).path = x.path := rfl

theorem mem_groupRows {g : List Info} {r : Row} (hr : r ∈ groupRows g) :
    1 < g.length ∧ ∃ y ∈ g, r.path = y.path := by
  unfold groupRows at hr
  split at hr
  · rename_i hlen
    rcases hs : sortKeep g with _ | ⟨k, rest⟩ <;> rw [hs] at hr
    · simp at hr
    · have hperm := sortKeep_perm g
      rw [hs] at hperm
      rcases List.mem_cons.mp hr with h1 | h2
      · subst h1
        exact ⟨hlen, k, hperm.mem_iff.mp (List.mem_cons_self _ _), rfl⟩
      · rcases List.mem_map.mp h2 with ⟨y, hy, hmy⟩
        subst hmy
        exact ⟨hlen, y, hperm.mem_iff.mp (List.mem_cons_of_mem _ hy), rfl⟩
  · simp at hr

theorem length_filter_cons {α : Type} (p : α → Bool) (a : α) (l : List α) :
    (List.filter p (a :: l)).length =
      (if p a = true then 1 else 0) + (List.filter p l).length := by
  rw [List.filter_cons]
  split
  · simp [Nat.add_comm]
  · simp

theorem groupRows_filter_path {g : List Info} {k : Info} {rest : List Info}
    (hnd2 : ((k :: rest).map Info.path).Nodup)
    (hlen : 1 < g.length) (hs : sortKeep g = k :: rest)
    {x : Info} (hx : x ∈ g) :
    ((groupRows g).filter (fun r => r.path == x.path)).length = 1 := by
  have hperm := sortKeep_perm g
  rw [hs] at hperm
  have hxk : x ∈ k :: rest := hperm.mem_iff.mpr hx
  have hmain := length_filter_eq_one_of_nodup Info.path hnd2 hxk
  have hB : (rest.map (mkRow FStatus.moveToBackup)).filter (fun r => r.path == x.path)
      = (rest.filter (fun y => y.path == x.path)).map (mkRow FStatus.moveToBackup) := by
    rw [List.filter_map]
    rfl
  rw [groupRows_eq hlen hs, length_filter_cons, hB, List.length_map, mkRow_path]
  rw [length_filter_cons] at hmain
  by_cases hk : (k.path == x.path) = true
  · simp only [hk, eq_self_iff_true, if_true] at hmain ⊢
    exact hmain
  · rw [Bool.not_eq_true] at hk
    simp only [hk, Bool.false_eq_true, if_false] at hmain ⊢
    exact hmain

theorem groupRows_keep_status {g : List Info} {k : Info} {rest : List Info}
    (hnd2 : ((k :: rest).map Info.path).Nodup)
    (hlen : 1 < g.length) (hs : sortKeep g = k :: rest)
    {r : Row} (hr : r ∈ groupRows g) (hp : r.path = k.path) :
    r = mkRow FStatus.keep k := by
  rw [groupRows_eq hlen hs] at hr
  rcases List.mem_cons.mp hr with h1 | h2
  · exact h1
  · exfalso
    rcases List.mem_map.mp h2 with ⟨y, hy, hmy⟩
    subst hmy
    have hyk : y.path = k.path := hp
    simp only [List.map_cons, List.nodup_cons] at hnd2
    exact hnd2.1 (hyk ▸ List.mem_map_of_mem Info.path hy)

end SingleTree

/-! ## Run-level lemmas for the reference-mode script -/

namespace Compare

theorem mem_find_media_files {fs : FS} {root : FPath} {f : PFile} :
    f ∈ find_media_files fs root ↔
      fs.dirs.contains root = true ∧ f ∈ fs.files ∧
      isUnder root f.dir = true ∧ extOK f.name = true := by
  unfold find_media_files
  rcases hc : fs.dirs.contains root with _ | _
  · simp [hc]
  · rw [if_pos rfl]
    simp only [List.mem_filter, Bool.and_eq_true]
    constructor
    · rintro ⟨hf, h1, h2⟩
      exact ⟨by trivial, hf, h1, h2⟩
    · rintro ⟨_, hf, h1, h2⟩
      exact ⟨hf, h1, h2⟩

theorem main_exists (canon : FPath → FPath) (fs : FS)
    (h : (fs.dirs.contains REFERENCE_DIR && fs.dirs.contains TARGET_DIR) = true) :
    main canon fs =
      { refMap := buildRefMap (find_media_files fs REFERENCE_DIR)
        scannedRef := find_media_files fs REFERENCE_DIR
        scannedTgt := find_media_files fs TARGET_DIR
        deleted := (find_media_files fs TARGET_DIR).filter
          (delCond (buildRefMap (find_media_files fs REFERENCE_DIR)) canon)
        rows := ((find_media_files fs TARGET_DIR).filter
          (delCond (buildRefMap (find_media_files fs REFERENCE_DIR)) canon)).map (fun f =>
            { status := pstr "Deleted"
              deletedPath := filePath f
              keptPath :=
                match get_file_hash f with
                | none => []
                | some h => ((lookupM (buildRefMap (find_media_files fs REFERENCE_DIR)) h).getD [])
              sizeBytes := f.size })
        deletedSize := (((find_media_files fs TARGET_DIR).filter
          (delCond (buildRefMap (find_media_files fs REFERENCE_DIR)) canon)).map
            (fun f => f.size)).sum
        finalFs :=
          { dirs := fs.dirs
            files := fs.files.filter (fun f =>
              !((((find_media_files fs TARGET_DIR).filter
                (delCond (buildRefMap (find_media_files fs REFERENCE_DIR)) canon)).map
                  filePath).contains (filePath f))) }
        exitCode := 0 } := by
  unfold main
  rw [if_pos h]

theorem main_missing (canon : FPath → FPath) (fs : FS)
    (h : (fs.dirs.contains REFERENCE_DIR && fs.dirs.contains TARGET_DIR) = false) :
    main canon fs =
      { refMap := [], scannedRef := [], scannedTgt := [], deleted := [],
        rows := [], deletedSize := 0, finalFs := fs, exitCode := 0 } := by
  have hnc : ¬((fs.dirs.contains REFERENCE_DIR && fs.dirs.contains TARGET_DIR) = true) := by
    rw [h]
    simp
  unfold main
  rw [if_neg hnc]

theorem mem_deleted {canon : FPath → FPath} {fs : FS} {f : PFile}
    (hf : f ∈ (main canon fs).deleted) :
    f ∈ find_media_files fs TARGET_DIR ∧
      delCond (buildRefMap (find_media_files fs REFERENCE_DIR)) canon f = true := by
  rcases hc : (fs.dirs.contains REFERENCE_DIR && fs.dirs.contains TARGET_DIR) with _ | _
  · rw [main_missing canon fs hc] at hf
    simp at hf
  · rw [main_exists canon fs hc] at hf
    exact List.mem_filter.mp hf

theorem delCond_none {m : List (Nat × FPath)} {canon : FPath → FPath} {f : PFile}
    (hh : get_file_hash f = none) : delCond m canon f = false := by
  unfold delCond
  rw [hh]

theorem delCond_some_none {m : List (Nat × FPath)} {canon : FPath → FPath} {f : PFile}
    {hv : Nat} (hh : get_file_hash f = some hv) (ho : lookupM m hv = none) :
    delCond m canon f = false := by
  unfold delCond
  rw [hh]
  show (match lookupM m hv with
    | none => false
    | some orig => !(canon (filePath f) == canon orig) && f.movable) = false
  rw [ho]

theorem delCond_some_some {m : List (Nat × FPath)} {canon : FPath → FPath} {f : PFile}
    {hv : Nat} {orig : FPath} (hh : get_file_hash f = some hv)
    (ho : lookupM m hv = some orig) :
    delCond m canon f = (!(canon (filePath f) == canon orig) && f.movable) := by
  unfold delCond
  rw [hh]
  show (match lookupM m hv with
    | none => false
    | some orig => !(canon (filePath f) == canon orig) && f.movable)
    = (!(canon (filePath f) == canon orig) && f.movable)
  rw [ho]

theorem delCond_elim {m : List (Nat × FPath)} {canon : FPath → FPath} {f : PFile}
    (h : delCond m canon f = true) :
    ∃ hv orig, get_file_hash f = some hv ∧ lookupM m hv = some orig ∧
      canon (filePath f) ≠ canon orig ∧ f.movable = true := by
  cases hh : get_file_hash f with
  | none => rw [delCond_none hh] at h; exact Bool.noConfusion h
  | some hv =>
    cases ho : lookupM m hv with
    | none => rw [delCond_some_none hh ho] at h; exact Bool.noConfusion h
    | some orig =>
      rw [delCond_some_some hh ho] at h
      simp only [Bool.and_eq_true, Bool.not_eq_true', beq_eq_false_iff_ne, ne_eq] at h
      exact ⟨hv, orig, rfl, ho, h.1, h.2⟩

end Compare

/-! ## Rescanning after the action phase -/

namespace SingleTree

theorem scanFiles_map_relocate (cfg : Config) (srcs : List FPath) :
    ∀ l : List PFile,
      (l.map (relocate cfg srcs)).filter (fun f =>
        isUnder cfg.target f.dir && !(cfg.backup.isPrefixOf f.dir) && extOK f.name)
      = (l.filter (fun f =>
          isUnder cfg.target f.dir && !(cfg.backup.isPrefixOf f.dir) && extOK f.name)).filter
            (fun f => !(srcs.contains (filePath f)))
  | [] => rfl
  | f :: t => by
    simp only [List.map_cons, List.filter_cons]
    rcases hc : srcs.contains (filePath f) with _ | _
    · have hid : relocate cfg srcs f = f :=
        relocate_of_not_mem (fun hm => by
          rw [mem_contains_iff.mpr hm] at hc
          exact Bool.noConfusion hc)
      rw [hid]
      by_cases hp : (isUnder cfg.target f.dir && !(cfg.backup.isPrefixOf f.dir)
          && extOK f.name) = true
      · rw [if_pos hp, if_pos hp, List.filter_cons, if_pos (by rw [hc]; rfl)]
        rw [scanFiles_map_relocate cfg srcs t]
      · rw [if_neg hp, if_neg hp]
        exact scanFiles_map_relocate cfg srcs t
    · have hpfx : cfg.backup.isPrefixOf (relocate cfg srcs f).dir = true :=
        pfxBool_iff.mpr (relocate_dir_pfx hc)
      have hLfalse : (isUnder cfg.target (relocate cfg srcs f).dir
          && !(cfg.backup.isPrefixOf (relocate cfg srcs f).dir)
          && extOK (relocate cfg srcs f).name) = false := by
        rw [hpfx]
        simp
      rw [if_neg (by simp [hLfalse])]
      by_cases hp : (isUnder cfg.target f.dir && !(cfg.backup.isPrefixOf f.dir)
          && extOK f.name) = true
      · rw [if_pos hp, List.filter_cons, if_neg (by rw [hc]; simp)]
        exact scanFiles_map_relocate cfg srcs t
      · rw [if_neg hp]
        exact scanFiles_map_relocate cfg srcs t

theorem scanFiles_final (cfg : Config) (fs : FS)
    (ht : fs.dirs.contains cfg.target = true) :
    scanFiles cfg (run_auto_backup cfg fs).finalFs
      = (scanFiles cfg fs).filter (fun f =>
          !(((run_auto_backup cfg fs).movedInfos.map (fun x => x.path)).contains
            (filePath f))) := by
  have ht2 : (run_auto_backup cfg fs).finalFs.dirs.contains cfg.target = true := by
    rw [run_finalFs_dirs, mem_contains_iff]
    exact List.mem_append_left _ (mem_contains_iff.mp ht)
  unfold scanFiles
  rw [if_pos ht2, if_pos ht, run_finalFs_files]
  exact scanFiles_map_relocate cfg _ fs.files

theorem dictStep_none {d : List (Nat × List Info)} {f : PFile}
    (hf : get_file_hash f = none) :
    (match get_file_hash f with
      | none => d
      | some h => dictInsert d h (toInfo f)) = d := by
  rw [hf]

theorem buildDict_skip {f : PFile} (hf : get_file_hash f = none) (A B : List PFile) :
    buildDict (A ++ f :: B) = buildDict (A ++ B) := by
  unfold buildDict
  simp only [List.foldl_append, List.foldl_cons]
  rw [hf]

end SingleTree

namespace Compare

theorem refStep_none {m : List (Nat × FPath)} {f : PFile}
    (hf : get_file_hash f = none) :
    (match get_file_hash f with
      | none => m
      | some h => mapSet m h (filePath f)) = m := by
  rw [hf]

theorem buildRefMap_skip {f : PFile} (hf : get_file_hash f = none) (A B : List PFile) :
    buildRefMap (A ++ f :: B) = buildRefMap (A ++ B) := by
  unfold buildRefMap
  simp only [List.foldl_append, List.foldl_cons]
  rw [hf]

end Compare

theorem filter_middle_skip {p : PFile → Bool} {f : PFile} (hp : p f = false)
    (l1 l2 : List PFile) : (l1 ++ f :: l2).filter p = (l1 ++ l2).filter p := by
  rw [List.filter_append, List.filter_append, List.filter_cons_of_neg (by simp [hp])]

/-! ## The hardcoded roots never overlap -/

theorem ref_tgt_disjoint {p : FPath} (h1 : (Compare.REFERENCE_DIR ++ ['/']) <+: p)
    (h2 : (Compare.TARGET_DIR ++ ['/']) <+: p) : False := by
  have e1 := take_eq_of_pfx h1 (k := 11) (by decide)
  have e2 := take_eq_of_pfx h2 (k := 11) (by decide)
  rw [e1] at e2
  exact absurd e2 (by decide)

theorem tgt_backup_disjoint {p : FPath} (h1 : (SingleTree.TARGET_DRIVE ++ ['/']) <+: p)
    (h2 : SingleTree.BACKUP_DIR <+: p) : False := by
  have e1 := take_eq_of_pfx h1 (k := 5) (by decide)
  have e2 := take_eq_of_pfx h2 (k := 5) (by decide)
  rw [e1] at e2
  exact absurd e2 (by decide)

/-! ## Singleton-filter helpers -/

theorem filter_eq_singleton_of_nodup {α β : Type} [BEq β] [LawfulBEq β] {l : List α}
    (f : α → β) (hnd : (l.map f).Nodup) {x : α} (hx : x ∈ l) :
    l.filter (fun y => f y == f x) = [x] := by
  induction l with
  | nil => simp at hx
  | cons a t ih =>
    simp only [List.map_cons, List.nodup_cons] at hnd
    by_cases hfa : f a = f x
    · have hax : x = a := by
        rcases List.mem_cons.mp hx with h1 | h2
        · exact h1
        · exact absurd (by rw [hfa]; exact List.mem_map_of_mem f h2) hnd.1
      rw [List.filter_cons_of_pos (by simp [hfa])]
      have hnil : t.filter (fun y => f y == f x) = [] := by
        rw [List.filter_eq_nil_iff]
        intro b hb
        simp only [beq_iff_eq]
        intro hfb
        exact hnd.1 (by rw [hfa, ← hfb]; exact List.mem_map_of_mem f hb)
      rw [hnil, hax]
    · rw [List.filter_cons_of_neg (by simp [hfa])]
      rcases List.mem_cons.mp hx with h1 | h2
      · exact absurd (by rw [h1]) hfa
      · exact ih hnd.2 h2

namespace SingleTree

/-- Filtering the whole run's rows down to one group member's path yields
exactly that group's rows for the path: other groups contribute nothing. -/
theorem rows_filter_group {cfg : Config} {fs : FS}
    (hnd : (fs.files.map filePath).Nodup) {d : Nat} {g : List Info}
    (hg : (d, g) ∈ buildDict (scanFiles cfg fs)) {x : Info} (hx : x ∈ g) :
    (run_auto_backup cfg fs).rows.filter (fun r => r.path == x.path)
      = (groupRows g).filter (fun r => r.path == x.path) := by
  rw [run_rows]
  apply filter_flatMap_single _ _ _ Prod.fst (buildDict_keys_nodup _) hg
  intro b hb hbne
  rw [List.filter_eq_nil_iff]
  intro r hr
  simp only [beq_iff_eq]
  intro hrp
  rcases mem_groupRows hr with ⟨hlen2, y, hy, hry⟩
  rcases group_unique_of_path (scan_paths_nodup hnd) hg hx hb hy (hrp ▸ hry) with ⟨hd, _, _⟩
  exact hbne (by rw [← hd])

theorem groupRows_filter_keep {g : List Info} {k : Info} {rest : List Info}
    (hnd2 : ((k :: rest).map Info.path).Nodup)
    (hlen : 1 < g.length) (hs : sortKeep g = k :: rest) :
    (groupRows g).filter (fun r => r.path == k.path) = [mkRow FStatus.keep k] := by
  rw [groupRows_eq hlen hs, List.filter_cons_of_pos (by simp [mkRow_path])]
  have hnil : (rest.map (mkRow FStatus.moveToBackup)).filter (fun r => r.path == k.path)
      = [] := by
    rw [List.filter_eq_nil_iff]
    intro r hr
    rcases List.mem_map.mp hr with ⟨y, hy, hmy⟩
    subst hmy
    simp only [mkRow_path, beq_iff_eq]
    intro hyk
    simp only [List.map_cons, List.nodup_cons] at hnd2
    exact hnd2.1 (hyk ▸ List.mem_map_of_mem Info.path hy)
  rw [hnil]

theorem groupRows_filter_move {g : List Info} {k : Info} {rest : List Info}
    (hnd2 : ((k :: rest).map Info.path).Nodup)
    (hlen : 1 < g.length) (hs : sortKeep g = k :: rest)
    {x : Info} (hx : x ∈ rest) :
    (groupRows g).filter (fun r => r.path == x.path)
      = [mkRow FStatus.moveToBackup x] := by
  simp only [List.map_cons, List.nodup_cons] at hnd2
  have hkx : ¬(k.path = x.path) := by
    intro he
    exact hnd2.1 (he ▸ List.mem_map_of_mem Info.path hx)
  rw [groupRows_eq hlen hs, List.filter_cons_of_neg (by simp [mkRow_path, hkx])]
  rw [List.filter_map]
  have hone : rest.filter ((fun r => r.path == x.path) ∘ mkRow FStatus.moveToBackup)
      = rest.filter (fun y => Info.path y == Info.path x) := rfl
  rw [hone, filter_eq_singleton_of_nodup Info.path hnd2.2 hx]
  rfl

/-- The nodup-path fact for a sorted duplicate group. -/
theorem sorted_group_paths_nodup {cfg : Config} {fs : FS}
    (hnd : (fs.files.map filePath).Nodup) {d : Nat} {g : List Info}
    (hg : (d, g) ∈ buildDict (scanFiles cfg fs)) {k : Info} {rest : List Info}
    (hs : sortKeep g = k :: rest) :
    ((k :: rest).map Info.path).Nodup := by
  have hperm := sortKeep_perm g
  rw [hs] at hperm
  exact ((hperm.map Info.path).nodup_iff).mpr (group_paths_nodup (scan_paths_nodup hnd) hg)

end SingleTree

/-! ## Claims -/

/-- C2: For every duplicate group, the retention policy selects exactly one
record to keep, deterministically given identical input order, by the
composite order: records whose path does not contain the denylist marker
come first; among ties, the record with the longer file name comes first;
remaining ties are broken by original scan-encounter order.  Formally: for
any non-empty group, the sort is a permutation whose head is a member of
the group, the head's composite key is maximal (no member's key is
strictly greater), and the head is the first member of the group attaining
that key.  In particular, for two records with identical denylist status
named `img1.jpg` and `image_001.jpg`, the record named `image_001.jpg`
comes first (is kept). -/
theorem claim_C2 :
    (∀ g : List SingleTree.Info, g ≠ [] →
      ∃ k rest, SingleTree.sortKeep g = k :: rest ∧
        List.Perm (SingleTree.sortKeep g) g ∧ k ∈ g ∧
        (∀ x ∈ g, SingleTree.keyGT (SingleTree.keyOf x) (SingleTree.keyOf k) = false) ∧
        (g.filter (fun x => SingleTree.keyOf x == SingleTree.keyOf k)).head? = some k) ∧
    SingleTree.sortKeep [exImg1, exImage001] = [exImage001, exImg1] := by
  constructor
  · intro g hg
    rcases hs : SingleTree.sortKeep g with _ | ⟨k, rest⟩
    · exfalso
      have hlen := SingleTree.sortKeep_length g
      rw [hs] at hlen
      exact hg (List.length_eq_zero.mp hlen.symm)
    · have hperm := SingleTree.sortKeep_perm g
      rw [hs] at hperm
      exact ⟨k, rest, rfl, hperm,
        hperm.mem_iff.mp (List.mem_cons_self _ _),
        SingleTree.sortKeep_head_max hs, SingleTree.sortKeep_head_first hs⟩
  · decide

/-- Witness for C2 at the concrete two-record group of the claim. -/
theorem claim_C2_witness :
    ∃ k rest, SingleTree.sortKeep [exImg1, exImage001] = k :: rest ∧
      List.Perm (SingleTree.sortKeep [exImg1, exImage001]) [exImg1, exImage001] ∧
      k ∈ [exImg1, exImage001] ∧
      (∀ x ∈ [exImg1, exImage001],
        SingleTree.keyGT (SingleTree.keyOf x) (SingleTree.keyOf k) = false) ∧
      (([exImg1, exImage001].filter
        (fun x => SingleTree.keyOf x == SingleTree.keyOf k)).head? = some k) :=
  claim_C2.1 [exImg1, exImage001] (by decide)

/-- C5: In reference mode, a duplicate is never deleted when the
canonicalised duplicate path equals the canonicalised reference path: for
every target file whose canonical path equals the canonical path of the
matched reference file, the deletion branch is not taken.  The
canonicalisation is the abstract function `canon` applied by the
comparison (`os.path.abspath` in the script). -/
theorem claim_C5 (canon : FPath → FPath) (fs : FS) (f : PFile) (hv : Nat)
    (orig : FPath) (hscan : f ∈ (Compare.main canon fs).scannedTgt)
    (hh : get_file_hash f = some hv)
    (ho : Compare.lookupM (Compare.main canon fs).refMap hv = some orig)
    (hcan : canon (filePath f) = canon orig) :
    f ∉ (Compare.main canon fs).deleted := by
  rcases hc : (fs.dirs.contains Compare.REFERENCE_DIR
      && fs.dirs.contains Compare.TARGET_DIR) with _ | _
  · rw [Compare.main_missing canon fs hc]
    simp
  · rw [Compare.main_exists canon fs hc] at ho ⊢
    intro hdel
    rcases List.mem_filter.mp hdel with ⟨_, hcond⟩
    rcases Compare.delCond_elim hcond with ⟨hv2, orig2, hh2, ho2, hne2, _⟩
    rw [hh] at hh2
    have hv2e : hv = hv2 := Option.some.inj hh2
    rw [← hv2e] at ho2
    rw [ho] at ho2
    exact hne2 (Option.some.inj ho2 ▸ hcan)

/-- Witness for C5: with a constant canonicalisation the matched copy in
`fsRef` is not deleted. -/
theorem claim_C5_witness :
    mkFile "D:/Photos/Target_To_Clean" "copy.jpg" 5 true true
      ∉ (Compare.main (fun _ => ([] : FPath)) fsRef).deleted :=
  claim_C5 (fun _ => ([] : FPath)) fsRef
    (mkFile "D:/Photos/Target_To_Clean" "copy.jpg" 5 true true) 5
    (pstr "D:/Photos/Reference/orig.jpg") (by decide) (by decide) (by decide) rfl

/-- Counterexample to C6 as stated: on a filesystem where the configured
reference root does not exist, the reference-mode run aborts before
scanning (nothing scanned, nothing deleted) but the process exit status is
0, not non-zero — `main` just returns and the interpreter exits cleanly. -/
theorem cex_C6 :
    fsNone.dirs.contains Compare.REFERENCE_DIR = false ∧
    (Compare.main (fun p => p) fsNone).scannedRef = [] ∧
    (Compare.main (fun p => p) fsNone).scannedTgt = [] ∧
    (Compare.main (fun p => p) fsNone).deleted = [] ∧
    (Compare.main (fun p => p) fsNone).exitCode = 0 := by
  decide

/-- C6 (amended): In reference mode, when a configured root directory does
not exist the run aborts before any file is scanned, hashed or deleted,
but the exit status is zero, as it is for every run; single-tree mode
performs no existence check at all and always exits with status zero (a
missing scan root merely makes the scan, and hence the action phase,
empty). -/
theorem claim_C6_amended :
    (∀ (canon : FPath → FPath) (fs : FS),
      (fs.dirs.contains Compare.REFERENCE_DIR = false ∨
       fs.dirs.contains Compare.TARGET_DIR = false) →
      (Compare.main canon fs).scannedRef = [] ∧
      (Compare.main canon fs).scannedTgt = [] ∧
      (Compare.main canon fs).refMap = [] ∧
      (Compare.main canon fs).deleted = [] ∧
      (Compare.main canon fs).rows = [] ∧
      (Compare.main canon fs).finalFs = fs ∧
      (Compare.main canon fs).exitCode = 0) ∧
    (∀ (cfg : SingleTree.Config) (fs : FS),
      (SingleTree.run_auto_backup cfg fs).exitCode = 0 ∧
      (fs.dirs.contains cfg.target = false →
        (SingleTree.run_auto_backup cfg fs).scanned = [] ∧
        (SingleTree.run_auto_backup cfg fs).moved = [] ∧
        (SingleTree.run_auto_backup cfg fs).rows = [])) := by
  constructor
  · intro canon fs h
    have hc : (fs.dirs.contains Compare.REFERENCE_DIR
        && fs.dirs.contains Compare.TARGET_DIR) = false := by
      rcases h with h | h <;> rw [h] <;> simp
    rw [Compare.main_missing canon fs hc]
    exact ⟨rfl, rfl, rfl, rfl, rfl, rfl, rfl⟩
  · intro cfg fs
    refine ⟨rfl, ?_⟩
    intro h
    have hscan : SingleTree.scanFiles cfg fs = [] := by
      unfold SingleTree.scanFiles
      rw [if_neg (by rw [h]; simp)]
    refine ⟨hscan, ?_, ?_⟩
    · rw [SingleTree.run_moved, SingleTree.run_movedInfos, hscan]
      rfl
    · rw [SingleTree.run_rows, hscan]
      rfl

/-- Witness for the amended C6 at concrete inputs. -/
theorem claim_C6_amended_witness :
    (Compare.main (fun p => p) fsNone).rows = [] ∧
    (SingleTree.run_auto_backup SingleTree.defaultConfig fsNone).moved = [] :=
  ⟨(claim_C6_amended.1 (fun p => p) fsNone (Or.inl (by decide))).2.2.2.2.1,
   ((claim_C6_amended.2 SingleTree.defaultConfig fsNone).2 (by decide)).2.1⟩

/-- C10: In single-tree mode, every record inserted into the digest index
has an absolute path that does not begin with the backup root's absolute
path as a string prefix (at the script's hardcoded configuration), because
the scan loop skips every directory whose absolute path merely has the
backup root as a string prefix — so not only the backup subtree but any
directory such as `<backup-root>_old` is silently excluded from scanning
and deduplication, at any configuration. -/
theorem claim_C10 :
    (∀ (fs : FS) (d : Nat) (g : List SingleTree.Info) (x : SingleTree.Info),
      (d, g) ∈ SingleTree.buildDict
        (SingleTree.scanFiles SingleTree.defaultConfig fs) →
      x ∈ g → SingleTree.BACKUP_DIR.isPrefixOf x.path = false) ∧
    (∀ (cfg : SingleTree.Config) (fs : FS) (f : PFile),
      cfg.backup.isPrefixOf f.dir = true → f ∉ SingleTree.scanFiles cfg fs) ∧
    (∀ (fs : FS) (f : PFile) (d : Nat) (g : List SingleTree.Info),
      SingleTree.BACKUP_DIR.isPrefixOf f.dir = true →
      (d, g) ∈ SingleTree.buildDict
        (SingleTree.scanFiles SingleTree.defaultConfig fs) →
      SingleTree.toInfo f ∉ g) := by
  have part1 : ∀ (fs : FS) (d : Nat) (g : List SingleTree.Info) (x : SingleTree.Info),
      (d, g) ∈ SingleTree.buildDict
        (SingleTree.scanFiles SingleTree.defaultConfig fs) →
      x ∈ g → SingleTree.BACKUP_DIR.isPrefixOf x.path = false := by
    intro fs d g x hg hx
    obtain ⟨f, hf, hfh, hfx⟩ := SingleTree.group_member_file hg hx
    have hscan := SingleTree.mem_scanFiles.mp hf
    have hxp : x.path = filePath f := by rw [← hfx]; rfl
    rcases hb : SingleTree.BACKUP_DIR.isPrefixOf x.path with _ | _
    · rfl
    · exfalso
      have h2 : SingleTree.BACKUP_DIR <+: filePath f := hxp ▸ pfxBool_iff.mp hb
      have h1 : (SingleTree.TARGET_DRIVE ++ ['/']) <+: filePath f :=
        isUnder_path_pfx hscan.2.2.1 f.name
      exact tgt_backup_disjoint h1 h2
  refine ⟨part1, ?_, ?_⟩
  · intro cfg fs f hpfx hmem
    have hscan := SingleTree.mem_scanFiles.mp hmem
    rw [hscan.2.2.2.1] at hpfx
    exact Bool.noConfusion hpfx
  · intro fs f d g hpfx hg hmem
    have hfalse := part1 fs d g (SingleTree.toInfo f) hg hmem
    have hpfx2 : SingleTree.BACKUP_DIR.isPrefixOf (SingleTree.toInfo f).path = true :=
      pfxBool_iff.mpr ((pfxBool_iff.mp hpfx).trans ⟨'/' :: f.name, rfl⟩)
    rw [hpfx2] at hfalse
    exact Bool.noConfusion hfalse

/-- Witness for C10 at concrete inputs: a sibling directory extending the
backup root's string is excluded, and an indexed record's path is not
backup-prefixed. -/
theorem claim_C10_witness :
    mkFile "D:/Duplicate_Backup_old" "x.jpg" 1 true true
      ∉ SingleTree.scanFiles SingleTree.defaultConfig fsDup ∧
    SingleTree.BACKUP_DIR.isPrefixOf exImg1.path = false :=
  ⟨claim_C10.2.1 SingleTree.defaultConfig fsDup
    (mkFile "D:/Duplicate_Backup_old" "x.jpg" 1 true true) (by decide),
   claim_C10.1 fsDup 7 [exImg1, exImage001] exImg1 (by decide) (by decide)⟩

/-- C4: In reference mode, files of the reference tree are never deleted:
every path passed to deletion comes from a file enumerated from the target
tree whose digest matches a reference digest and whose canonical path
differs from the matched reference path; and every file lying under the
reference root is still present after the run.  The two hardcoded roots
are non-overlapping string trees, so target enumeration can never produce
a reference-tree path. -/
theorem claim_C4 (canon : FPath → FPath) (fs : FS) :
    (∀ f ∈ (Compare.main canon fs).deleted,
      f ∈ (Compare.main canon fs).scannedTgt ∧
      isUnder Compare.TARGET_DIR f.dir = true ∧
      ∃ hv orig, get_file_hash f = some hv ∧
        Compare.lookupM (Compare.main canon fs).refMap hv = some orig ∧
        canon (filePath f) ≠ canon orig) ∧
    (∀ f ∈ fs.files, isUnder Compare.REFERENCE_DIR f.dir = true →
      f ∈ (Compare.main canon fs).finalFs.files) := by
  rcases hc : (fs.dirs.contains Compare.REFERENCE_DIR
      && fs.dirs.contains Compare.TARGET_DIR) with _ | _
  · rw [Compare.main_missing canon fs hc]
    constructor
    · intro f hf
      simp at hf
    · intro f hf _
      exact hf
  · rw [Compare.main_exists canon fs hc]
    constructor
    · intro f hf
      rcases List.mem_filter.mp hf with ⟨htgt, hcond⟩
      rcases Compare.delCond_elim hcond with ⟨hv, orig, hh, ho, hne, _⟩
      exact ⟨htgt, (Compare.mem_find_media_files.mp htgt).2.2.1,
        hv, orig, hh, ho, hne⟩
    · intro f hf href
      refine List.mem_filter.mpr ⟨hf, ?_⟩
      rcases hd : (((Compare.find_media_files fs Compare.TARGET_DIR).filter
          (Compare.delCond (Compare.buildRefMap
            (Compare.find_media_files fs Compare.REFERENCE_DIR)) canon)).map
              filePath).contains (filePath f) with _ | _
      · rfl
      · exfalso
        rcases List.mem_map.mp (SingleTree.mem_contains_iff.mp hd) with ⟨q, hq, hqp⟩
        rcases List.mem_filter.mp hq with ⟨hqt, _⟩
        have h1 : (Compare.TARGET_DIR ++ ['/']) <+: filePath q :=
          isUnder_path_pfx (Compare.mem_find_media_files.mp hqt).2.2.1 q.name
        have h2 : (Compare.REFERENCE_DIR ++ ['/']) <+: filePath q :=
          hqp ▸ isUnder_path_pfx href f.name
        exact ref_tgt_disjoint h2 h1

/-- Witness for C4: the reference original of `fsRef` survives the run. -/
theorem claim_C4_witness :
    mkFile "D:/Photos/Reference" "orig.jpg" 5 true true
      ∈ (Compare.main (fun p => p) fsRef).finalFs.files :=
  (claim_C4 (fun p => p) fsRef).2
    (mkFile "D:/Photos/Reference" "orig.jpg" 5 true true) (by decide) (by decide)

/-- C8: For every file whose content read fails during hashing,
`get_file_hash` returns the distinguished failure value `None` instead of
a digest; the file is skipped by both callers — it contributes no entry to
the reference map or the digest dictionary and is never deleted — and the
run produces exactly the outcomes of the run on the filesystem without
that file (all other files are fully processed). -/
theorem claim_C8 (f : PFile) (hf : f.readable = false) (fsA fsB : FS)
    (l1 l2 : List PFile) (hdirs : fsA.dirs = fsB.dirs)
    (hA : fsA.files = l1 ++ f :: l2) (hB : fsB.files = l1 ++ l2)
    (canon : FPath → FPath) (cfg : SingleTree.Config) :
    get_file_hash f = none ∧
    (Compare.main canon fsA).refMap = (Compare.main canon fsB).refMap ∧
    (Compare.main canon fsA).deleted = (Compare.main canon fsB).deleted ∧
    (Compare.main canon fsA).rows = (Compare.main canon fsB).rows ∧
    f ∉ (Compare.main canon fsA).deleted ∧
    SingleTree.buildDict (SingleTree.scanFiles cfg fsA)
      = SingleTree.buildDict (SingleTree.scanFiles cfg fsB) ∧
    (SingleTree.run_auto_backup cfg fsA).rows
      = (SingleTree.run_auto_backup cfg fsB).rows ∧
    (SingleTree.run_auto_backup cfg fsA).moved
      = (SingleTree.run_auto_backup cfg fsB).moved := by
  have hhash : get_file_hash f = none := by simp [get_file_hash, hf]
  have hfind : ∀ root : FPath,
      (Compare.find_media_files fsA root = Compare.find_media_files fsB root) ∨
      ∃ A B2, Compare.find_media_files fsA root = A ++ f :: B2 ∧
        Compare.find_media_files fsB root = A ++ B2 := by
    intro root
    unfold Compare.find_media_files
    rw [hdirs, hA, hB]
    by_cases hd : fsB.dirs.contains root = true
    · rw [if_pos hd, if_pos hd]
      by_cases hp : (isUnder root f.dir && Compare.extOK f.name) = true
      · right
        exact ⟨_, _, by
          rw [List.filter_append,
            List.filter_cons_of_pos (p := fun (g : PFile) => isUnder root g.dir && Compare.extOK g.name) hp],
          by rw [List.filter_append]⟩
      · left
        exact filter_middle_skip (Bool.eq_false_iff.mpr hp) l1 l2
    · rw [if_neg hd, if_neg hd]
      left
      rfl
  have hmap : Compare.buildRefMap (Compare.find_media_files fsA Compare.REFERENCE_DIR)
      = Compare.buildRefMap (Compare.find_media_files fsB Compare.REFERENCE_DIR) := by
    rcases hfind Compare.REFERENCE_DIR with he | ⟨A, B2, h1, h2⟩
    · rw [he]
    · rw [h1, h2, Compare.buildRefMap_skip hhash]
  have hdel : ∀ m : List (Nat × FPath),
      (Compare.find_media_files fsA Compare.TARGET_DIR).filter (Compare.delCond m canon)
      = (Compare.find_media_files fsB Compare.TARGET_DIR).filter
          (Compare.delCond m canon) := by
    intro m
    rcases hfind Compare.TARGET_DIR with he | ⟨A, B2, h1, h2⟩
    · rw [he]
    · rw [h1, h2]
      exact filter_middle_skip (Compare.delCond_none hhash) A B2
  have hscanS : SingleTree.scanFiles cfg fsA = SingleTree.scanFiles cfg fsB ∨
      ∃ A B2, SingleTree.scanFiles cfg fsA = A ++ f :: B2 ∧
        SingleTree.scanFiles cfg fsB = A ++ B2 := by
    unfold SingleTree.scanFiles
    rw [hdirs, hA, hB]
    by_cases hd : fsB.dirs.contains cfg.target = true
    · rw [if_pos hd, if_pos hd]
      by_cases hp : (isUnder cfg.target f.dir && !(cfg.backup.isPrefixOf f.dir)
          && SingleTree.extOK f.name) = true
      · right
        exact ⟨_, _, by
          rw [List.filter_append,
            List.filter_cons_of_pos (p := fun (g : PFile) => isUnder cfg.target g.dir
              && !(cfg.backup.isPrefixOf g.dir) && SingleTree.extOK g.name) hp],
          by rw [List.filter_append]⟩
      · left
        exact filter_middle_skip (Bool.eq_false_iff.mpr hp) l1 l2
    · rw [if_neg hd, if_neg hd]
      left
      rfl
  have hdict : SingleTree.buildDict (SingleTree.scanFiles cfg fsA)
      = SingleTree.buildDict (SingleTree.scanFiles cfg fsB) := by
    rcases hscanS with he | ⟨A, B2, h1, h2⟩
    · rw [he]
    · rw [h1, h2, SingleTree.buildDict_skip hhash]
  have hrowsS : (SingleTree.run_auto_backup cfg fsA).rows
      = (SingleTree.run_auto_backup cfg fsB).rows := by
    rw [SingleTree.run_rows, SingleTree.run_rows, hdict]
  have hmovedS : (SingleTree.run_auto_backup cfg fsA).moved
      = (SingleTree.run_auto_backup cfg fsB).moved := by
    rw [SingleTree.run_moved, SingleTree.run_moved, SingleTree.run_movedInfos,
      SingleTree.run_movedInfos, hdict]
  have hcond : (fsA.dirs.contains Compare.REFERENCE_DIR
        && fsA.dirs.contains Compare.TARGET_DIR)
      = (fsB.dirs.contains Compare.REFERENCE_DIR
        && fsB.dirs.contains Compare.TARGET_DIR) := by
    rw [hdirs]
  refine ⟨hhash, ?_⟩
  rcases hcB : (fsB.dirs.contains Compare.REFERENCE_DIR
      && fsB.dirs.contains Compare.TARGET_DIR) with _ | _
  · have hcA : (fsA.dirs.contains Compare.REFERENCE_DIR
        && fsA.dirs.contains Compare.TARGET_DIR) = false := hcond.trans hcB
    rw [Compare.main_missing canon fsA hcA, Compare.main_missing canon fsB hcB]
    exact ⟨rfl, rfl, rfl, by simp, hdict, hrowsS, hmovedS⟩
  · have hcA : (fsA.dirs.contains Compare.REFERENCE_DIR
        && fsA.dirs.contains Compare.TARGET_DIR) = true := hcond.trans hcB
    rw [Compare.main_exists canon fsA hcA, Compare.main_exists canon fsB hcB]
    refine ⟨hmap, ?_, ?_, ?_, hdict, hrowsS, hmovedS⟩
    · rw [hmap]
      exact hdel _
    · rw [hmap]
      exact congrArg (List.map _) (hdel _)
    · intro hmem
      rcases List.mem_filter.mp hmem with ⟨_, hcond2⟩
      rw [Compare.delCond_none hhash] at hcond2
      exact Bool.noConfusion hcond2

/-- Witness for C8 at a concrete unreadable file. -/
theorem claim_C8_witness :
    get_file_hash (mkFile "D:/Photos/Target_To_Clean" "bad.jpg" 5 false true) = none ∧
    (Compare.main (fun p => p) fsUnread).deleted
      = (Compare.main (fun p => p) fsUnreadLess).deleted ∧
    mkFile "D:/Photos/Target_To_Clean" "bad.jpg" 5 false true
      ∉ (Compare.main (fun p => p) fsUnread).deleted := by
  have h := claim_C8 (mkFile "D:/Photos/Target_To_Clean" "bad.jpg" 5 false true)
    (by decide) fsUnread fsUnreadLess
    [mkFile "D:/Photos/Reference" "orig.jpg" 5 true true] []
    (by decide) (by decide) (by decide) (fun p => p) SingleTree.defaultConfig
  exact ⟨h.1, h.2.2.1, h.2.2.2.2.1⟩

/-- Counterexample to C3 as stated: in single-tree mode a file with no
duplicate (a digest group of size 1) is scanned, hashed and classified,
yet no row at all is appended to the report — the claim says it is logged
as Kept.  On `fsSolo` one file is processed and the report is empty. -/
theorem cex_C3 :
    (SingleTree.run_auto_backup SingleTree.defaultConfig fsSolo).scanned
      = [mkFile "D:/D/a" "solo.jpg" 9 true true] ∧
    (SingleTree.run_auto_backup SingleTree.defaultConfig fsSolo).rows = [] := by
  decide

/-- C3 (amended): In single-tree mode, exactly one report row — carrying
the file's status, title, size, capture date, modification date and path —
is written for every member of each duplicate group of size ≥ 2, the kept
member included; a file in a group of size 1 receives no report row at
all.  In reference mode a row is written only for each successfully
deleted file; a target file that is not deleted receives no row. -/
theorem claim_C3_amended :
    (∀ (cfg : SingleTree.Config) (fs : FS),
      (fs.files.map filePath).Nodup →
      ∀ (d : Nat) (g : List SingleTree.Info),
        (d, g) ∈ SingleTree.buildDict (SingleTree.scanFiles cfg fs) →
        (2 ≤ g.length → ∀ x ∈ g, ∃ s : SingleTree.FStatus,
          (SingleTree.run_auto_backup cfg fs).rows.filter (fun r => r.path == x.path)
            = [SingleTree.mkRow s x]) ∧
        (g.length = 1 → ∀ x ∈ g,
          (SingleTree.run_auto_backup cfg fs).rows.filter (fun r => r.path == x.path)
            = [])) ∧
    (∀ (canon : FPath → FPath) (fs : FS) (f : PFile),
      (fs.files.map filePath).Nodup →
      f ∈ (Compare.main canon fs).scannedTgt →
      f ∉ (Compare.main canon fs).deleted →
      (Compare.main canon fs).rows.filter
        (fun r => r.deletedPath == filePath f) = []) := by
  constructor
  · intro cfg fs hnd d g hg
    constructor
    · intro hlen2 x hx
      have hlen : 1 < g.length := hlen2
      rcases hs : SingleTree.sortKeep g with _ | ⟨k, rest⟩
      · exfalso
        have hl := SingleTree.sortKeep_length g
        rw [hs] at hl
        simp only [List.length_nil] at hl
        omega
      · have hnd2 := SingleTree.sorted_group_paths_nodup hnd hg hs
        rw [SingleTree.rows_filter_group hnd hg hx]
        have hperm := SingleTree.sortKeep_perm g
        rw [hs] at hperm
        rcases List.mem_cons.mp (hperm.mem_iff.mpr hx) with h1 | h2
        · subst h1
          exact ⟨SingleTree.FStatus.keep, SingleTree.groupRows_filter_keep hnd2 hlen hs⟩
        · exact ⟨SingleTree.FStatus.moveToBackup,
            SingleTree.groupRows_filter_move hnd2 hlen hs h2⟩
    · intro hlen1 x hx
      rw [SingleTree.rows_filter_group hnd hg hx]
      unfold SingleTree.groupRows
      rw [if_neg (by omega)]
      rfl
  · intro canon fs f hnd hscan hnotdel
    rcases hc : (fs.dirs.contains Compare.REFERENCE_DIR
        && fs.dirs.contains Compare.TARGET_DIR) with _ | _
    · rw [Compare.main_missing canon fs hc]
      rfl
    · rw [Compare.main_exists canon fs hc] at hscan hnotdel ⊢
      rw [List.filter_eq_nil_iff]
      intro r hr
      simp only [beq_iff_eq]
      intro hrp
      rcases List.mem_map.mp hr with ⟨q, hq, hqr⟩
      subst hqr
      have hqp : filePath q = filePath f := hrp
      have hqf : q ∈ fs.files :=
        (Compare.mem_find_media_files.mp (List.mem_filter.mp hq).1).2.1
      have hff : f ∈ fs.files := (Compare.mem_find_media_files.mp hscan).2.1
      have hqe : q = f := List.inj_on_of_nodup_map hnd hqf hff hqp
      subst hqe
      exact hnotdel hq

/-- Witness for the amended C3: the kept duplicate of `fsDup` gets exactly
one report row. -/
theorem claim_C3_amended_witness :
    ∃ s : SingleTree.FStatus,
      (SingleTree.run_auto_backup SingleTree.defaultConfig fsDup).rows.filter
        (fun r => r.path == exImg1.path) = [SingleTree.mkRow s exImg1] :=
  (claim_C3_amended.1 SingleTree.defaultConfig fsDup (by decide) 7
    [exImg1, exImage001] (by decide)).1 (by decide) exImg1 (by decide)

/-- C1: In single-tree mode, for every duplicate group of size N ≥ 2
(whose members' moves all succeed), after the action phase exactly one
member of the group — the head of the retention sort — remains at its
original path with status Keep, and the other N−1 members are moved to
destination = backup-root + (their path relative to the scan root), with
the destination directory created and exactly one log row written for
each member (the keeper's row carrying status Keep). -/
theorem claim_C1 (cfg : SingleTree.Config) (fs : FS)
    (hwf : ∀ f ∈ fs.files, ('/' : Char) ∉ f.name)
    (hnd : (fs.files.map filePath).Nodup)
    (d : Nat) (g : List SingleTree.Info)
    (hg : (d, g) ∈ SingleTree.buildDict (SingleTree.scanFiles cfg fs))
    (hlen2 : 2 ≤ g.length)
    (hmov : ∀ x ∈ g, x.movable = true) :
    ∃ k rest, SingleTree.sortKeep g = k :: rest ∧ k ∈ g ∧
      rest.length + 1 = g.length ∧
      (∃ fl ∈ (SingleTree.run_auto_backup cfg fs).finalFs.files,
        filePath fl = k.path) ∧
      (SingleTree.run_auto_backup cfg fs).rows.filter (fun r => r.path == k.path)
        = [SingleTree.mkRow SingleTree.FStatus.keep k] ∧
      ∀ x ∈ rest,
        (x.path, joinP cfg.backup (relpathP x.path cfg.target))
            ∈ (SingleTree.run_auto_backup cfg fs).moved ∧
        dirnameP (joinP cfg.backup (relpathP x.path cfg.target))
            ∈ (SingleTree.run_auto_backup cfg fs).finalFs.dirs ∧
        (¬ ∃ fl ∈ (SingleTree.run_auto_backup cfg fs).finalFs.files,
          filePath fl = x.path) ∧
        (SingleTree.run_auto_backup cfg fs).rows.filter (fun r => r.path == x.path)
          = [SingleTree.mkRow SingleTree.FStatus.moveToBackup x] := by
  have hlen : 1 < g.length := hlen2
  rcases hs : SingleTree.sortKeep g with _ | ⟨k, rest⟩
  · exfalso
    have hl := SingleTree.sortKeep_length g
    rw [hs] at hl
    simp only [List.length_nil] at hl
    omega
  · have hperm := SingleTree.sortKeep_perm g
    rw [hs] at hperm
    have hnd2 := SingleTree.sorted_group_paths_nodup hnd hg hs
    have hkg : k ∈ g := hperm.mem_iff.mp (List.mem_cons_self _ _)
    have hlenr : rest.length + 1 = g.length := by
      have hl := SingleTree.sortKeep_length g
      rw [hs] at hl
      simp only [List.length_cons] at hl
      omega
    have hknot : k.path ∉ (SingleTree.run_auto_backup cfg fs).movedInfos.map
        (fun y => y.path) := by
      intro hk
      rcases (SingleTree.src_mem_iff hnd hg hkg).mp hk with ⟨k2, rest2, hs2, hkr, _⟩
      rw [hs] at hs2
      injection hs2 with h1 h2
      rw [← h2] at hkr
      simp only [List.map_cons, List.nodup_cons] at hnd2
      exact hnd2.1 (List.mem_map_of_mem SingleTree.Info.path hkr)
    obtain ⟨fk, hfk, hfkh, hfkx⟩ := SingleTree.group_member_file hg hkg
    have hfkfs : fk ∈ fs.files := (SingleTree.mem_scanFiles.mp hfk).2.1
    have hkpath : k.path = filePath fk := by rw [← hfkx]; rfl
    refine ⟨k, rest, rfl, hkg, hlenr, ?_, ?_, ?_⟩
    · refine ⟨SingleTree.relocate cfg
        ((SingleTree.run_auto_backup cfg fs).movedInfos.map (fun y => y.path)) fk,
        List.mem_map_of_mem _ hfkfs, ?_⟩
      rw [SingleTree.relocate_of_not_mem (by rw [← hkpath]; exact hknot)]
      exact hkpath.symm
    · rw [SingleTree.rows_filter_group hnd hg hkg]
      exact SingleTree.groupRows_filter_keep hnd2 hlen hs
    · intro x hx
      have hxg : x ∈ g := hperm.mem_iff.mp (List.mem_cons_of_mem _ hx)
      have hxmov : x.movable = true := hmov x hxg
      have hxsrc : x.path ∈ (SingleTree.run_auto_backup cfg fs).movedInfos.map
          (fun y => y.path) :=
        (SingleTree.src_mem_iff hnd hg hxg).mpr ⟨k, rest, hs, hx, hxmov⟩
      have hxmi : x ∈ (SingleTree.run_auto_backup cfg fs).movedInfos :=
        SingleTree.mem_movedInfos.mpr
          ⟨d, g, hg, SingleTree.groupMoved_of_tail hs hlen hx hxmov⟩
      obtain ⟨fx, hfx, hfxh, hfxx⟩ := SingleTree.group_member_file hg hxg
      have hfxscan := SingleTree.mem_scanFiles.mp hfx
      have hfxfs : fx ∈ fs.files := hfxscan.2.1
      have hxpath : x.path = filePath fx := by rw [← hfxx]; rfl
      refine ⟨?_, ?_, ?_, ?_⟩
      · exact List.mem_map_of_mem
          (fun y => (y.path, SingleTree.destOf cfg y.path)) hxmi
      · rw [SingleTree.run_finalFs_dirs]
        exact List.mem_append_right _
          (List.mem_map_of_mem (fun y => dirnameP (SingleTree.destOf cfg y.path)) hxmi)
      · rintro ⟨fl, hfl, hflp⟩
        rw [SingleTree.run_finalFs_files] at hfl
        rcases List.mem_map.mp hfl with ⟨f0, hf0, hrel⟩
        subst hrel
        by_cases hc0 : (((SingleTree.run_auto_backup cfg fs).movedInfos.map
            (fun y => y.path)).contains (filePath f0)) = true
        · rw [SingleTree.relocate_path hc0] at hflp
          have hbp : cfg.backup <+: dirnameP x.path := by
            rw [← hflp]
            exact backup_pfx_dirnameP cfg.backup _
          have hdirx : dirnameP x.path = fx.dir := by
            rw [hxpath]
            exact dirnameP_join (hwf fx hfxfs)
          rw [hdirx] at hbp
          have hc : cfg.backup.isPrefixOf fx.dir = true := pfxBool_iff.mpr hbp
          rw [hfxscan.2.2.2.1] at hc
          exact Bool.noConfusion hc
        · rw [SingleTree.relocate_of_not_mem
            (fun hm => hc0 (SingleTree.mem_contains_iff.mpr hm))] at hflp
          exact hc0 (by rw [hflp]; exact SingleTree.mem_contains_iff.mpr hxsrc)
      · rw [SingleTree.rows_filter_group hnd hg hxg]
        exact SingleTree.groupRows_filter_move hnd2 hlen hs hx

/-- Witness for C1 on the concrete duplicate pair of `fsDup`. -/
theorem claim_C1_witness :
    ∃ k rest, SingleTree.sortKeep [exImg1, exImage001] = k :: rest ∧
      k ∈ [exImg1, exImage001] ∧
      rest.length + 1 = [exImg1, exImage001].length ∧
      (∃ fl ∈ (SingleTree.run_auto_backup SingleTree.defaultConfig fsDup).finalFs.files,
        filePath fl = k.path) ∧
      (SingleTree.run_auto_backup SingleTree.defaultConfig fsDup).rows.filter
        (fun r => r.path == k.path) = [SingleTree.mkRow SingleTree.FStatus.keep k] ∧
      ∀ x ∈ rest,
        (x.path, joinP SingleTree.defaultConfig.backup
          (relpathP x.path SingleTree.defaultConfig.target))
            ∈ (SingleTree.run_auto_backup SingleTree.defaultConfig fsDup).moved ∧
        dirnameP (joinP SingleTree.defaultConfig.backup
          (relpathP x.path SingleTree.defaultConfig.target))
            ∈ (SingleTree.run_auto_backup SingleTree.defaultConfig fsDup).finalFs.dirs ∧
        (¬ ∃ fl ∈ (SingleTree.run_auto_backup SingleTree.defaultConfig fsDup).finalFs.files,
          filePath fl = x.path) ∧
        (SingleTree.run_auto_backup SingleTree.defaultConfig fsDup).rows.filter
          (fun r => r.path == x.path)
          = [SingleTree.mkRow SingleTree.FStatus.moveToBackup x] :=
  claim_C1 SingleTree.defaultConfig fsDup (by decide) (by decide) 7
    [exImg1, exImage001] (by decide) (by decide) (by decide)

/-- Counterexample to C7 as stated: on `fsFail` the move of the non-kept
duplicate fails; the source file is left untouched and processing
continues, but the report row written for it carries status
`Move to Backup` — the status assigned before the attempt — not an Error
status; the script's report has no error status at all. -/
theorem cex_C7 :
    (SingleTree.run_auto_backup SingleTree.defaultConfig fsFail).moved = [] ∧
    (SingleTree.run_auto_backup SingleTree.defaultConfig fsFail).rows =
      [SingleTree.mkRow SingleTree.FStatus.keep
        (SingleTree.toInfo (mkFile "D:/D/a" "abcd.jpg" 7 true true)),
       SingleTree.mkRow SingleTree.FStatus.moveToBackup
        (SingleTree.toInfo (mkFile "D:/D/b" "b.jpg" 7 true false))] ∧
    (∃ fl ∈ (SingleTree.run_auto_backup SingleTree.defaultConfig fsFail).finalFs.files,
      filePath fl = filePath (mkFile "D:/D/b" "b.jpg" 7 true false)) := by
  decide

/-- C7 (amended): When a move of a non-kept record fails in single-tree
mode, the source file is left untouched at its original path, exactly one
record for that file is written to the report — with status
`Move to Backup` (assigned before the attempt), not an Error status, the
failure being reported on the console only — and processing continues: in
every group, each non-kept member whose move succeeds is still moved. -/
theorem claim_C7_amended (cfg : SingleTree.Config) (fs : FS)
    (hwf : ∀ f ∈ fs.files, ('/' : Char) ∉ f.name)
    (hnd : (fs.files.map filePath).Nodup)
    (d : Nat) (g : List SingleTree.Info) (k : SingleTree.Info)
    (rest : List SingleTree.Info)
    (hg : (d, g) ∈ SingleTree.buildDict (SingleTree.scanFiles cfg fs))
    (hs : SingleTree.sortKeep g = k :: rest)
    (x : SingleTree.Info) (hx : x ∈ rest) (hxm : x.movable = false) :
    x.path ∉ (SingleTree.run_auto_backup cfg fs).movedInfos.map (fun y => y.path) ∧
    (∃ fl ∈ (SingleTree.run_auto_backup cfg fs).finalFs.files,
      filePath fl = x.path) ∧
    (SingleTree.run_auto_backup cfg fs).rows.filter (fun r => r.path == x.path)
      = [SingleTree.mkRow SingleTree.FStatus.moveToBackup x] ∧
    (∀ (d2 : Nat) (g2 : List SingleTree.Info) (k2 : SingleTree.Info)
        (rest2 : List SingleTree.Info) (y : SingleTree.Info),
      (d2, g2) ∈ SingleTree.buildDict (SingleTree.scanFiles cfg fs) →
      SingleTree.sortKeep g2 = k2 :: rest2 → y ∈ rest2 → y.movable = true →
      (y.path, SingleTree.destOf cfg y.path)
        ∈ (SingleTree.run_auto_backup cfg fs).moved) := by
  have hlen : 1 < g.length := by
    have hl := SingleTree.sortKeep_length g
    rw [hs] at hl
    simp only [List.length_cons] at hl
    have hpos : 0 < rest.length := List.length_pos.mpr (List.ne_nil_of_mem hx)
    omega
  have hperm := SingleTree.sortKeep_perm g
  rw [hs] at hperm
  have hxg : x ∈ g := hperm.mem_iff.mp (List.mem_cons_of_mem _ hx)
  have hnd2 := SingleTree.sorted_group_paths_nodup hnd hg hs
  have hnotsrc : x.path ∉ (SingleTree.run_auto_backup cfg fs).movedInfos.map
      (fun y => y.path) := by
    intro hmem
    rcases (SingleTree.src_mem_iff hnd hg hxg).mp hmem with ⟨k2, rest2, hs2, hxr2, hxmov⟩
    rw [hxmov] at hxm
    exact Bool.noConfusion hxm
  obtain ⟨fx, hfx, hfxh, hfxx⟩ := SingleTree.group_member_file hg hxg
  have hfxfs : fx ∈ fs.files := (SingleTree.mem_scanFiles.mp hfx).2.1
  have hxpath : x.path = filePath fx := by rw [← hfxx]; rfl
  refine ⟨hnotsrc, ?_, ?_, ?_⟩
  · refine ⟨SingleTree.relocate cfg
      ((SingleTree.run_auto_backup cfg fs).movedInfos.map (fun y => y.path)) fx,
      List.mem_map_of_mem _ hfxfs, ?_⟩
    rw [SingleTree.relocate_of_not_mem (by rw [← hxpath]; exact hnotsrc)]
    exact hxpath.symm
  · rw [SingleTree.rows_filter_group hnd hg hxg]
    exact SingleTree.groupRows_filter_move hnd2 hlen hs hx
  · intro d2 g2 k2 rest2 y hg2 hs2 hy hym
    have hlen2 : 1 < g2.length := by
      have hl := SingleTree.sortKeep_length g2
      rw [hs2] at hl
      simp only [List.length_cons] at hl
      have hpos : 0 < rest2.length := List.length_pos.mpr (List.ne_nil_of_mem hy)
      omega
    exact List.mem_map_of_mem (fun y => (y.path, SingleTree.destOf cfg y.path))
      (SingleTree.mem_movedInfos.mpr
        ⟨d2, g2, hg2, SingleTree.groupMoved_of_tail hs2 hlen2 hy hym⟩)

/-- Witness for the amended C7: the failed move's source in `fsFail` is
still present after the run. -/
theorem claim_C7_amended_witness :
    ∃ fl ∈ (SingleTree.run_auto_backup SingleTree.defaultConfig fsFail).finalFs.files,
      filePath fl = (SingleTree.toInfo (mkFile "D:/D/b" "b.jpg" 7 true false)).path :=
  (claim_C7_amended SingleTree.defaultConfig fsFail (by decide) (by decide) 7
    [SingleTree.toInfo (mkFile "D:/D/a" "abcd.jpg" 7 true true),
     SingleTree.toInfo (mkFile "D:/D/b" "b.jpg" 7 true false)]
    (SingleTree.toInfo (mkFile "D:/D/a" "abcd.jpg" 7 true true))
    [SingleTree.toInfo (mkFile "D:/D/b" "b.jpg" 7 true false)]
    (by decide) (by decide)
    (SingleTree.toInfo (mkFile "D:/D/b" "b.jpg" 7 true false))
    (by decide) (by decide)).2.1

namespace SingleTree

/-- Core of idempotence: among the files of one digest group that survive
the first run's moves, at most one remains — every sorted non-keeper is a
moved source when all moves succeed. -/
theorem second_scan_group_short {cfg : Config} {fs : FS}
    (hnd : (fs.files.map filePath).Nodup)
    (hmov : ∀ f ∈ scanFiles cfg fs, f.movable = true) (d : Nat) :
    (((scanFiles cfg fs).filter (fun f => get_file_hash f == some d)).filter
      (fun f => !(((run_auto_backup cfg fs).movedInfos.map
        (fun x => x.path)).contains (filePath f)))).length ≤ 1 := by
  by_cases hG : ((scanFiles cfg fs).filter
      (fun f => get_file_hash f == some d)).length ≤ 1
  · exact le_trans (List.length_filter_le _ _) hG
  · have hG2 : 1 < ((scanFiles cfg fs).filter
        (fun f => get_file_hash f == some d)).length := Nat.not_le.mp hG
    have hg1len : (groupSpec (scanFiles cfg fs) d).length
        = ((scanFiles cfg fs).filter (fun f => get_file_hash f == some d)).length := by
      unfold groupSpec
      rw [List.length_map]
    have hg1mem : (d, groupSpec (scanFiles cfg fs) d)
        ∈ buildDict (scanFiles cfg fs) := by
      refine mem_buildDict_iff.mpr ⟨rfl, ?_⟩
      intro hnil
      rw [hnil] at hg1len
      simp only [List.length_nil] at hg1len
      omega
    rcases hs : sortKeep (groupSpec (scanFiles cfg fs) d) with _ | ⟨k, rest⟩
    · exfalso
      have hl := sortKeep_length (groupSpec (scanFiles cfg fs) d)
      rw [hs] at hl
      simp only [List.length_nil] at hl
      omega
    · have hkey : ∀ f0 ∈ (scanFiles cfg fs).filter
          (fun f => get_file_hash f == some d),
          (!(((run_auto_backup cfg fs).movedInfos.map (fun x => x.path)).contains
            (filePath f0))) = true → toInfo f0 = k := by
        intro f0 hf0 hq
        have hf0g : toInfo f0 ∈ groupSpec (scanFiles cfg fs) d := by
          rcases List.mem_filter.mp hf0 with ⟨hf0s, hf0h⟩
          exact mem_groupSpec.mpr ⟨f0, hf0s, by simpa using hf0h, rfl⟩
        have hperm := sortKeep_perm (groupSpec (scanFiles cfg fs) d)
        rw [hs] at hperm
        rcases List.mem_cons.mp (hperm.mem_iff.mpr hf0g) with h1 | h2
        · exact h1
        · exfalso
          have hmov0 : (toInfo f0).movable = true := by
            show f0.movable = true
            exact hmov f0 (List.mem_filter.mp hf0).1
          have hsrc : (toInfo f0).path
              ∈ (run_auto_backup cfg fs).movedInfos.map (fun y => y.path) :=
            (src_mem_iff hnd hg1mem hf0g).mpr ⟨k, rest, hs, h2, hmov0⟩
          have hcont : (((run_auto_backup cfg fs).movedInfos.map
              (fun x => x.path)).contains (filePath f0)) = true :=
            mem_contains_iff.mpr hsrc
          rw [hcont] at hq
          exact Bool.noConfusion hq
      apply length_le_one_of_map_const (f := filePath) (c := k.path)
      · have hsub : List.Sublist
            (((scanFiles cfg fs).filter (fun f => get_file_hash f == some d)).filter
              (fun f => !(((run_auto_backup cfg fs).movedInfos.map
                (fun x => x.path)).contains (filePath f))))
            (scanFiles cfg fs) :=
          (List.filter_sublist _).trans (List.filter_sublist _)
        exact (List.Sublist.map filePath hsub).nodup (scan_paths_nodup hnd)
      · intro f0 hf0
        rcases List.mem_filter.mp hf0 with ⟨hf0G, hq⟩
        have hk := hkey f0 hf0G hq
        show filePath f0 = k.path
        rw [← hk]
        rfl

end SingleTree

/-- C9: Single-tree mode is idempotent: running the mode a second time on
the tree state produced by a completed first run (one in which every
scanned file's move succeeds) moves zero additional files — after the
first run, for each digest at most one file with that digest remains in
the scanned part of the tree, every moved file having landed under the
backup root, which the scan excludes. -/
theorem claim_C9 (cfg : SingleTree.Config) (fs : FS)
    (hnd : (fs.files.map filePath).Nodup)
    (hmov : ∀ f ∈ SingleTree.scanFiles cfg fs, f.movable = true) :
    (SingleTree.run_auto_backup cfg
      (SingleTree.run_auto_backup cfg fs).finalFs).moved = [] ∧
    (SingleTree.run_auto_backup cfg
      (SingleTree.run_auto_backup cfg fs).finalFs).movedInfos = [] := by
  suffices hgle : ∀ (d : Nat) (g : List SingleTree.Info),
      (d, g) ∈ SingleTree.buildDict
        (SingleTree.scanFiles cfg (SingleTree.run_auto_backup cfg fs).finalFs) →
      g.length ≤ 1 by
    have hmi : (SingleTree.run_auto_backup cfg
        (SingleTree.run_auto_backup cfg fs).finalFs).movedInfos = [] := by
      rw [SingleTree.run_movedInfos, List.flatMap_eq_nil_iff]
      intro kg hkg
      obtain ⟨dd, gg⟩ := kg
      show SingleTree.groupMoved gg = []
      unfold SingleTree.groupMoved
      rw [if_neg (by have := hgle dd gg hkg; omega)]
    refine ⟨?_, hmi⟩
    rw [SingleTree.run_moved, hmi]
    rfl
  intro d g hg2
  rcases ht : fs.dirs.contains cfg.target with _ | _
  · have hscan1 : SingleTree.scanFiles cfg fs = [] := by
      unfold SingleTree.scanFiles
      rw [if_neg (by rw [ht]; simp)]
    have hd2 : (SingleTree.run_auto_backup cfg fs).finalFs.dirs.contains cfg.target
        = false := by
      rw [SingleTree.run_finalFs_dirs, SingleTree.run_movedInfos, hscan1]
      show (fs.dirs ++ []).contains cfg.target = false
      rw [List.append_nil]
      exact ht
    have hscan2 : SingleTree.scanFiles cfg
        (SingleTree.run_auto_backup cfg fs).finalFs = [] := by
      unfold SingleTree.scanFiles
      rw [if_neg (by rw [hd2]; simp)]
    rw [hscan2] at hg2
    exact absurd (hg2 : (d, g) ∈ ([] : List (Nat × List SingleTree.Info)))
      (List.not_mem_nil _)
  · have hscan2 := SingleTree.scanFiles_final cfg fs ht
    rcases SingleTree.mem_buildDict_iff.mp hg2 with ⟨hgspec, _⟩
    rw [hscan2] at hgspec
    have hswap : ((SingleTree.scanFiles cfg fs).filter
          (fun f => !(((SingleTree.run_auto_backup cfg fs).movedInfos.map
            (fun x => x.path)).contains (filePath f)))).filter
            (fun f => get_file_hash f == some d)
        = ((SingleTree.scanFiles cfg fs).filter
            (fun f => get_file_hash f == some d)).filter
            (fun f => !(((SingleTree.run_auto_backup cfg fs).movedInfos.map
              (fun x => x.path)).contains (filePath f))) := by
      rw [List.filter_filter, List.filter_filter]
      exact List.filter_congr (fun x _ => Bool.and_comm _ _)
    have hglen : g.length
        = (((SingleTree.scanFiles cfg fs).filter
            (fun f => get_file_hash f == some d)).filter
            (fun f => !(((SingleTree.run_auto_backup cfg fs).movedInfos.map
              (fun x => x.path)).contains (filePath f)))).length := by
      rw [hgspec]
      unfold SingleTree.groupSpec
      rw [List.length_map, hswap]
    rw [hglen]
    exact SingleTree.second_scan_group_short hnd hmov d

/-- Witness for C9 at the concrete duplicate pair of `fsDup`. -/
theorem claim_C9_witness :
    (SingleTree.run_auto_backup SingleTree.defaultConfig
      (SingleTree.run_auto_backup SingleTree.defaultConfig fsDup).finalFs).moved = [] :=
  (claim_C9 SingleTree.defaultConfig fsDup (by decide) (by decide)).1
